import Mathlib

/-!
# Verification of the Math Mentor AI backend (run.py)

A shallow embedding of the backend's core logic: the `json.loads`-style
value parser and the multi-strategy extraction function
`extract_json_from_text`, the heuristic text classifier
`is_math_question`, the casual-query handler, the five pipeline agents
and the `/api/solve` endpoint assembly, all translated from `run.py`.

Python floats are modelled as rationals (the constants involved, 0.75,
0.85, 0.95, are exactly representable).  The external LLM completion
call is a parameter: an `Except Unit String` oracle per call site
(`.error` models the HTTPException / transport failure raised by
`call_llm`, `.ok` a returned completion text).  Python-level exceptions
inside a pipeline stage are modelled with `Except Unit`; each stage's
`try/except` catches them and produces the stage's fallback.
-/

/-! ## Characters and low-level scanning helpers -/

def quoteC : Char := '\x22'

def backslashC : Char := '\x5c'

def openB : Char := '\x7b'

def closeB : Char := '\x7d'

def backtickC : Char := '\x60'

/-- JSON whitespace (the four characters `json.loads` skips between tokens). -/
def isJsonWs (c : Char) : Bool := c = ' ' || c = '\t' || c = '\n' || c = '\r'

/-- Python regex `\s` / `str.strip` whitespace (ASCII part). -/
def isPyWs (c : Char) : Bool := isJsonWs c || c = '\x0b' || c = '\x0c'

def isDigitC (c : Char) : Bool := '0' ≤ c && c ≤ '9'

def skipWs (s : List Char) : List Char := s.dropWhile isJsonWs

/-- Leading- and trailing-whitespace strip, as Python `str.strip()`. -/
def pyStripL (s : List Char) : List Char :=
  ((s.dropWhile isPyWs).reverse.dropWhile isPyWs).reverse

def pyStrip (s : String) : String := ⟨pyStripL s.data⟩

def pyLower (s : String) : String := ⟨s.data.map Char.toLower⟩

/-- Python's substring test `needle in hay`. -/
def pyInStr (needle hay : String) : Bool := decide (needle.data <:+: hay.data)

/-! ## JSON values

The value universe of `json.loads`: numbers are modelled as rationals
(Python ints and floats; exponents and `\uXXXX` escapes are not
modelled, none of the texts this development evaluates use them). -/

inductive Json where
  | null : Json
  | bool : Bool → Json
  | num : ℚ → Json
  | str : String → Json
  | arr : List Json → Json
  | obj : List (String × Json) → Json

def Json.isObj : Json → Bool
  | .obj _ => true
  | _ => false

/-! ## The JSON parser (model of `json.loads`)

A fueled recursive-descent parser.  `parseValue` skips leading
whitespace and dispatches on the first character; `loadsL` runs it with
fuel `length + 1` and requires only trailing whitespace to remain, as
`json.loads` does. -/

def unescC (c : Char) : Option Char :=
  if c = quoteC then some quoteC
  else if c = backslashC then some backslashC
  else if c = '/' then some '/'
  else if c = 'n' then some '\n'
  else if c = 't' then some '\t'
  else if c = 'r' then some '\r'
  else if c = 'b' then some '\x08'
  else if c = 'f' then some '\x0c'
  else none

/-- Body of a JSON string after the opening quote: returns the decoded
characters and the remainder after the closing quote. -/
def parseStrBody : List Char → Option (List Char × List Char)
  | [] => none
  | c :: r =>
    if c = quoteC then some ([], r)
    else if c = backslashC then
      match r with
      | [] => none
      | e :: r2 =>
        match unescC e with
        | some ec => (parseStrBody r2).map (fun p => (ec :: p.1, p.2))
        | none => none
    else if c.toNat < 32 then none
    else (parseStrBody r).map (fun p => (c :: p.1, p.2))

def digitsToNat (ds : List Char) : Nat :=
  ds.foldl (fun a c => 10 * a + (c.toNat - 48)) 0

/-- JSON number: optional minus, digits, optional fractional part
(built with a single `mkRat`; `+`, `*`, `/` on `Rat` are irreducible and
would block evaluation). -/
def parseNum (s : List Char) : Option (Json × List Char) :=
  let np : Bool × List Char :=
    match s with
    | c :: r => if c = '-' then (true, r) else (false, c :: r)
    | [] => (false, [])
  let neg := np.1
  let s1 := np.2
  let ds := s1.takeWhile isDigitC
  let r1 := s1.dropWhile isDigitC
  if ds = [] then none
  else
    let ip : ℚ := (digitsToNat ds : ℚ)
    match r1 with
    | c :: r2 =>
      if c = '.' then
        let fs := r2.takeWhile isDigitC
        let r3 := r2.dropWhile isDigitC
        if fs = [] then none
        else
          let q : ℚ := mkRat (digitsToNat ds * 10 ^ fs.length + digitsToNat fs) (10 ^ fs.length)
          some (Json.num (if neg then -q else q), r3)
      else some (Json.num (if neg then -ip else ip), c :: r2)
    | [] => some (Json.num (if neg then -ip else ip), [])

def isLitPrefix (lit : List Char) (s : List Char) : Bool := List.isPrefixOf lit s

mutual

def parseValue : Nat → List Char → Option (Json × List Char)
  | 0, _ => none
  | Nat.succ n, s =>
    match skipWs s with
    | [] => none
    | c :: r =>
      if c = openB then
        match skipWs r with
        | [] => none
        | c2 :: r2 =>
          if c2 = closeB then some (Json.obj [], r2)
          else (parseMembers n (c2 :: r2)).map (fun p => (Json.obj p.1, p.2))
      else if c = '[' then
        match skipWs r with
        | [] => none
        | c2 :: r2 =>
          if c2 = ']' then some (Json.arr [], r2)
          else (parseElems n (c2 :: r2)).map (fun p => (Json.arr p.1, p.2))
      else if c = quoteC then
        (parseStrBody r).map (fun p => (Json.str ⟨p.1⟩, p.2))
      else if c = 't' then
        if isLitPrefix ['t', 'r', 'u', 'e'] (c :: r) then
          some (Json.bool true, r.drop 3)
        else none
      else if c = 'f' then
        if isLitPrefix ['f', 'a', 'l', 's', 'e'] (c :: r) then
          some (Json.bool false, r.drop 4)
        else none
      else if c = 'n' then
        if isLitPrefix ['n', 'u', 'l', 'l'] (c :: r) then
          some (Json.null, r.drop 3)
        else none
      else if c = '-' || isDigitC c then parseNum (c :: r)
      else none

def parseMembers : Nat → List Char → Option (List (String × Json) × List Char)
  | 0, _ => none
  | Nat.succ n, s =>
    match s with
    | [] => none
    | c :: r =>
      if c = quoteC then
        match parseStrBody r with
        | none => none
        | some (kcs, r2) =>
          match skipWs r2 with
          | ':' :: r4 =>
            match parseValue n r4 with
            | none => none
            | some (v, r5) =>
              match skipWs r5 with
              | [] => none
              | ch :: r7 =>
                if ch = ',' then
                  match parseMembers n (skipWs r7) with
                  | none => none
                  | some (kvs, r8) => some ((⟨kcs⟩, v) :: kvs, r8)
                else if ch = closeB then some ([(⟨kcs⟩, v)], r7)
                else none
          | _ => none
      else none

def parseElems : Nat → List Char → Option (List Json × List Char)
  | 0, _ => none
  | Nat.succ n, s =>
    match parseValue n s with
    | none => none
    | some (v, r) =>
      match skipWs r with
      | [] => none
      | ch :: r2 =>
        if ch = ',' then
          match parseElems n r2 with
          | none => none
          | some (vs, r3) => some (v :: vs, r3)
        else if ch = ']' then some ([v], r2)
        else none

end

/-- Model of `json.loads`: parse one value, allow trailing whitespace only. -/
def loadsL (s : List Char) : Option Json :=
  match parseValue (s.length + 1) s with
  | some (j, r) => if skipWs r = [] then some j else none
  | none => none

/-! ## JSON serialization

The canonical serializer used to state the extractor round-trip claim
(C6): `json.dumps`-style output with `", "` and `": "` separators.
`wfV` is the well-formedness predicate of that claim: numbers are
non-negative integers, strings consist of printable characters that
need no escaping and contain no brace or backtick (so that serialized
text interacts with the extraction regexes purely through the object
braces), and object keys are distinct. -/

def natDigitsAux : Nat → Nat → List Char
  | 0, _ => []
  | Nat.succ f, n =>
    if n < 10 then [Char.ofNat (48 + n)]
    else natDigitsAux f (n / 10) ++ [Char.ofNat (48 + n % 10)]

def natDigits (n : Nat) : List Char := natDigitsAux (n + 1) n

mutual

def serV : Json → List Char
  | .null => 'n' :: ['u', 'l', 'l']
  | .bool true => 't' :: ['r', 'u', 'e']
  | .bool false => 'f' :: ['a', 'l', 's', 'e']
  | .num q => natDigits q.num.toNat
  | .str s => quoteC :: s.data ++ [quoteC]
  | .arr xs => '[' :: serElems xs ++ [']']
  | .obj kvs => openB :: serMembers kvs ++ [closeB]

def serElems : List Json → List Char
  | [] => []
  | [x] => serV x
  | x :: y :: xs => serV x ++ ',' :: ' ' :: serElems (y :: xs)

def serMembers : List (String × Json) → List Char
  | [] => []
  | [(k, v)] => quoteC :: k.data ++ quoteC :: ':' :: ' ' :: serV v
  | (k, v) :: m :: kvs =>
    quoteC :: k.data ++ quoteC :: ':' :: ' ' :: serV v ++ ',' :: ' ' :: serMembers (m :: kvs)

end

/-- Characters allowed in well-formed strings and keys: printable, no
quote, backslash, brace or backtick. -/
def safeC (c : Char) : Bool :=
  32 ≤ c.toNat && !(c = quoteC) && !(c = backslashC) && !(c = openB)
    && !(c = closeB) && !(c = backtickC)

mutual

def wfV : Json → Bool
  | .null => true
  | .bool _ => true
  | .num q => q.den == 1 && decide (0 ≤ q.num)
  | .str s => s.data.all safeC
  | .arr xs => wfE xs
  | .obj kvs => wfM kvs

def wfE : List Json → Bool
  | [] => true
  | x :: xs => wfV x && wfE xs

def wfM : List (String × Json) → Bool
  | [] => true
  | (k, v) :: kvs =>
    k.data.all safeC && kvs.all (fun p => p.1 ≠ k) && wfV v && wfM kvs

end

/-! Brace-nesting depth of the serialized text (objects contribute a
brace pair, arrays do not). -/
mutual

def bdV : Json → Nat
  | .null => 0
  | .bool _ => 0
  | .num _ => 0
  | .str _ => 0
  | .arr xs => bdE xs
  | .obj kvs => 1 + bdM kvs

def bdE : List Json → Nat
  | [] => 0
  | x :: xs => max (bdV x) (bdE xs)

def bdM : List (String × Json) → Nat
  | [] => 0
  | (_, v) :: kvs => max (bdV v) (bdM kvs)

end

/-! Fuel needed by `parseValue` to parse the serialization. -/
mutual

def reqV : Json → Nat
  | .null => 1
  | .bool _ => 1
  | .num _ => 1
  | .str _ => 1
  | .arr xs => 1 + reqE xs
  | .obj kvs => 1 + reqM kvs

def reqE : List Json → Nat
  | [] => 1
  | x :: xs => 1 + max (reqV x) (reqE xs)

def reqM : List (String × Json) → Nat
  | [] => 1
  | (_, v) :: kvs => 1 + max (reqV v) (reqM kvs)

end

/-! ## Extraction regex models

`extract_json_from_text` in `run.py` tries, in order:
  1. `json.loads(text)` directly;
  2. `re.findall(r'```json\s*(.*?)\s*```', text, re.DOTALL)`, parsing
     each capture;
  3. the same with `r'```\s*(.*?)\s*```'`;
  4. `re.findall(r'\x7b[^\x7b\x7d]*(?:\x7b[^\x7b\x7d]*\x7d[^\x7b\x7d]*)*\x7d', ...)`,
     parsing each match;
and returns `\x7b\x7d` if everything fails.  The scanning functions below are
direct models of those two regex shapes: for the fence patterns the
leftmost match starts at the first occurrence of the opening marker and
the non-greedy capture ends at the first following `` ``` ``, with the
greedy `\s*` borders equivalent to stripping whitespace off the capture;
for the brace pattern a match starts at a `\x7b` and extends over text whose
brace nesting (relative to that brace) stays at most two deep, ending at
the close brace returning to level zero, the engine retrying from the
next character when a start position fails. -/

def dropTrailingWsPy (s : List Char) : List Char :=
  (s.reverse.dropWhile isPyWs).reverse

def skipWsPy (s : List Char) : List Char := s.dropWhile isPyWs

/-- Suffix after the first occurrence of `m`. -/
def findMarker (m : List Char) : List Char → Option (List Char)
  | [] => if m = [] then some [] else none
  | c :: s =>
    if isLitPrefix m (c :: s) then some ((c :: s).drop m.length)
    else findMarker m s

/-- Split at the first occurrence of `m`: the part before and after. -/
def takeUntilMarker (m : List Char) : List Char → Option (List Char × List Char)
  | [] => if m = [] then some ([], []) else none
  | c :: s =>
    if isLitPrefix m (c :: s) then some ([], (c :: s).drop m.length)
    else (takeUntilMarker m s).map (fun p => (c :: p.1, p.2))

theorem length_dropWhile_le (p : Char → Bool) (s : List Char) :
    (s.dropWhile p).length ≤ s.length := by
  induction s with
  | nil => simp [List.dropWhile]
  | cons c s ih =>
    rw [List.dropWhile]
    split
    · simp
      omega
    · simp

theorem findMarker_length_le (m : List Char) :
    ∀ s r, findMarker m s = some r → r.length ≤ s.length := by
  intro s
  induction s with
  | nil =>
    intro r h
    rw [findMarker] at h
    split at h
    · simp at h
      subst h
      simp
    · simp at h
  | cons c s ih =>
    intro r h
    rw [findMarker] at h
    by_cases hp : isLitPrefix m (c :: s) = true
    · simp [hp] at h
      subst h
      simp [List.length_drop]
    · simp [hp] at h
      have := ih r h
      simp
      omega

theorem takeUntilMarker_length_lt {m : List Char} (hm : m ≠ []) :
    ∀ s a r, takeUntilMarker m s = some (a, r) → r.length < s.length := by
  intro s
  induction s with
  | nil =>
    intro a r h
    rw [takeUntilMarker] at h
    simp [hm] at h
  | cons c s ih =>
    intro a r h
    rw [takeUntilMarker] at h
    by_cases hp : isLitPrefix m (c :: s) = true
    · simp [hp] at h
      obtain ⟨h1, h2⟩ := h
      subst h2
      rcases m with _ | ⟨x, xs⟩
      · exact absurd rfl hm
      · have : isLitPrefix (x :: xs) (c :: s) = true := hp
        simp [List.length_drop]
        omega
    · simp only [hp, if_false, Option.map_eq_some', Bool.false_eq_true] at h
      obtain ⟨⟨p1, p2⟩, hp2, he⟩ := h
      cases he
      have := ih p1 p2 hp2
      simp
      omega

def fenceM : List Char := [backtickC, backtickC, backtickC]

/-- Capture list of `re.findall` for a fenced pattern with opening
marker `m` (either `` ```json `` or `` ``` ``): repeatedly find the
marker, strip whitespace, capture up to the closing `` ``` ``. -/
def fencedCapturesF (m : List Char) : Nat → List Char → List (List Char)
  | 0, _ => []
  | Nat.succ f, s =>
    match findMarker m s with
    | none => []
    | some rest =>
      match takeUntilMarker fenceM (skipWsPy rest) with
      | none => []
      | some (content, after) => dropTrailingWsPy content :: fencedCapturesF m f after

def fencedCaptures (m : List Char) (s : List Char) : List (List Char) :=
  fencedCapturesF m (s.length + 1) s

def jsonFenceM : List Char :=
  [backtickC, backtickC, backtickC, 'j', 's', 'o', 'n']

def isBraceC (c : Char) : Bool := c = openB || c = closeB

/-- The brace-pattern attempt starting just after an opening brace, as a
depth automaton: the regex
`\x7b[^\x7b\x7d]*(?:\x7b[^\x7b\x7d]*\x7d[^\x7b\x7d]*)*\x7d` matches, from an opening
brace, exactly the text whose relative brace depth never exceeds two and
ends at the close brace returning the depth to zero (every choice in the
pattern is forced, so backtracking never changes this).  `d` is the
current relative depth (1 or 2); the match (close brace included) and
the remainder are returned. -/
def scanDepth : List Char → Nat → Option (List Char × List Char)
  | [], _ => none
  | c :: s, d =>
    if c = openB then
      if 2 ≤ d then none
      else (scanDepth s (d + 1)).map (fun p => (c :: p.1, p.2))
    else if c = closeB then
      if d = 1 then some ([closeB], s)
      else (scanDepth s (d - 1)).map (fun p => (c :: p.1, p.2))
    else (scanDepth s d).map (fun p => (c :: p.1, p.2))

theorem scanDepth_length_le :
    ∀ s d m r, scanDepth s d = some (m, r) → r.length ≤ s.length := by
  intro s
  induction s with
  | nil => intro d m r h; simp [scanDepth] at h
  | cons c s ih =>
    intro d m r h
    rw [scanDepth] at h
    split at h
    · split at h
      · simp at h
      · simp only [Option.map_eq_some'] at h
        obtain ⟨⟨q1, q2⟩, hq, he⟩ := h
        cases he
        have := ih _ _ _ hq
        simp
        omega
    · split at h
      · split at h
        · simp at h
          obtain ⟨h1, h2⟩ := h
          subst h2
          simp
        · simp only [Option.map_eq_some'] at h
          obtain ⟨⟨q1, q2⟩, hq, he⟩ := h
          cases he
          have := ih _ _ _ hq
          simp
          omega
      · simp only [Option.map_eq_some'] at h
        obtain ⟨⟨q1, q2⟩, hq, he⟩ := h
        cases he
        have := ih _ _ _ hq
        simp
        omega

/-- All matches of the brace pattern, in order: `re.findall` scans left
to right, emitting a match at each opening brace where the attempt
succeeds and continuing after it, else advancing one character. -/
def braceFindAllF : Nat → List Char → List (List Char)
  | 0, _ => []
  | Nat.succ f, s =>
    match s with
    | [] => []
    | c :: r =>
      if c = openB then
        match scanDepth r 1 with
        | some (m, rest) => (openB :: m) :: braceFindAllF f rest
        | none => braceFindAllF f r
      else braceFindAllF f r

def braceFindAll (s : List Char) : List (List Char) :=
  braceFindAllF (s.length + 1) s

/-- Try `json.loads` on each capture in order, first success wins
(the `for match in matches: try ... except: continue` loops). -/
def firstParse : List (List Char) → Option Json
  | [] => none
  | c :: cs =>
    match loadsL c with
    | some j => some j
    | none => firstParse cs

/-- `extract_json_from_text` from `run.py`: direct parse, then the
`` ```json `` fence pattern, then the bare fence pattern, then the
brace pattern, else the empty dict. -/
def extractJsonL (t : List Char) : Json :=
  match loadsL t with
  | some j => j
  | none =>
    match firstParse (fencedCaptures jsonFenceM t) with
    | some j => j
    | none =>
      match firstParse (fencedCaptures fenceM t) with
      | some j => j
      | none =>
        match firstParse (braceFindAll t) with
        | some j => j
        | none => Json.obj []

def extract_json_from_text (s : String) : Json := extractJsonL s.data

/-! ## The text classifier (`is_math_question` from `run.py`) -/

def greetings : List String :=
  ["hi", "hello", "hey", "good morning", "good afternoon", "good evening"]

def casual_queries : List String :=
  ["how are you", "what can you do", "help", "who are you", "what are you"]

def math_keywords : List String :=
  ["solve", "find", "calculate", "integrate", "differentiate", "derivative",
   "equation", "simplify", "prove", "evaluate", "factorize", "expand",
   "limit", "sum", "product", "matrix", "determinant", "vector"]

def math_symbols : List String :=
  ["=", "+", "-", "*", "/", "^", "∫", "∑", "∏", "sin", "cos", "tan", "log", "ln"]

/-- The veto loop: `text_lower == greeting or text_lower.startswith(greeting)`
over `greetings + casual_queries`. -/
def pyStartsWith (s pre : String) : Bool := isLitPrefix pre.data s.data

def vetoHit (text_lower : String) : Bool :=
  (greetings ++ casual_queries).any
    (fun g => text_lower == g || pyStartsWith text_lower g)

/-- The regex search `\d+\s*[+\-*/^]\s*\d+`: a digit run, optional
whitespace, an operator, optional whitespace, a digit, anywhere in the
text (`\d+` is greedy and backtracking cannot help, so a plain maximal
scan at each start position is exact). -/
def numOpMatchAt (s : List Char) : Bool :=
  let ds := s.takeWhile isDigitC
  let r1 := s.dropWhile isDigitC
  if ds = [] then false
  else
    match skipWsPy r1 with
    | [] => false
    | op :: r2 =>
      if op = '+' || op = '-' || op = '*' || op = '/' || op = '^' then
        match skipWsPy r2 with
        | [] => false
        | d :: _ => isDigitC d
      else false

def searchNumOp : List Char → Bool
  | [] => false
  | c :: s => numOpMatchAt (c :: s) || searchNumOp s

/-- `is_math_question` from `run.py`: veto on greetings/casual prefixes,
then keyword, symbol and number-operator positive signals.  Keywords are
matched in the lowered stripped text, symbols in the original text. -/
def is_math_question (text : String) : Bool :=
  let text_lower := pyStrip (pyLower text)
  if vetoHit text_lower then false
  else if math_keywords.any (fun k => pyInStr k text_lower) then true
  else if math_symbols.any (fun sy => pyInStr sy text) then true
  else searchNumOp text.data

/-! ## Python value semantics helpers

Python operations on the parsed values, with `Except Unit` for the
exceptions (`TypeError`, `KeyError`, `AttributeError`) that a stage's
`try/except` may catch. -/

def jLookup (l : List (String × Json)) (key : String) : Option Json :=
  match l.find? (fun p => p.1 == key) with
  | some p => some p.2
  | none => none

/-- Python truthiness. -/
def pyTruthy : Json → Bool
  | .null => false
  | .bool b => b
  | .num q => decide (q ≠ 0)
  | .str s => s ≠ ""
  | .arr l => !l.isEmpty
  | .obj l => !l.isEmpty

def jsonIsStrEq (j : Json) (s : String) : Bool :=
  match j with
  | .str t => t == s
  | _ => false

/-- Python `key in value`: dict key test, list membership (the needle is
a string, so only string elements can compare equal), substring test on
strings, `TypeError` otherwise. -/
def pyContains (j : Json) (key : String) : Except Unit Bool :=
  match j with
  | .obj l => .ok (l.any (fun p => p.1 == key))
  | .arr l => .ok (l.any (fun x => jsonIsStrEq x key))
  | .str s => .ok (pyInStr key s)
  | _ => .error ()

/-- Python `value[key]` with a string key. -/
def pyGetItem (j : Json) (key : String) : Except Unit Json :=
  match j with
  | .obj l =>
    match jLookup l key with
    | some v => .ok v
    | none => .error ()
  | _ => .error ()

/-- Python `value[key] = v` (replaces in place, appends new keys). -/
def jStore (l : List (String × Json)) (key : String) (v : Json) :
    List (String × Json) :=
  if l.any (fun p => p.1 == key) then
    l.map (fun p => if p.1 == key then (p.1, v) else p)
  else l ++ [(key, v)]

def pySetItem (j : Json) (key : String) (v : Json) : Except Unit Json :=
  match j with
  | .obj l => .ok (.obj (jStore l key v))
  | _ => .error ()

/-- Python `value.get(key, default)` (dicts only: `AttributeError`
otherwise). -/
def pyGetMethod (j : Json) (key : String) (dflt : Json) : Except Unit Json :=
  match j with
  | .obj l => .ok ((jLookup l key).getD dflt)
  | _ => .error ()

/-- Python `len(value)`. -/
def pyLen : Json → Except Unit Nat
  | .str s => .ok s.length
  | .arr l => .ok l.length
  | .obj l => .ok l.length
  | _ => .error ()

def parseFloatChars (s : List Char) : Option ℚ :=
  let (neg, s1) := match s with
    | '-' :: r => (true, r)
    | '+' :: r => (false, r)
    | _ => (false, s)
  let d1 := s1.takeWhile isDigitC
  let r1 := s1.dropWhile isDigitC
  match r1 with
  | '.' :: r2 =>
    let d2 := r2.takeWhile isDigitC
    let r3 := r2.dropWhile isDigitC
    if r3 = [] && (d1 ≠ [] || d2 ≠ []) then
      let q : ℚ := mkRat (digitsToNat d1 * 10 ^ d2.length + digitsToNat d2) (10 ^ d2.length)
      some (if neg then -q else q)
    else none
  | [] =>
    if d1 ≠ [] then some (if neg then -(digitsToNat d1 : ℚ) else (digitsToNat d1 : ℚ))
    else none
  | _ => none

/-- Python `float(value)`: numbers pass through, booleans become 0/1,
strings are stripped and parsed (exponents and inf/nan not modelled),
everything else raises. -/
def pyFloat : Json → Option ℚ
  | .num q => some q
  | .bool b => some (if b then 1 else 0)
  | .str s => parseFloatChars (pyStripL s.data)
  | _ => none

/-- Python `str(value)` as used in the agents' f-strings (an
approximation for containers; the result strings are plumbing only). -/
def pyStr : Json → String
  | .null => "None"
  | .bool true => "True"
  | .bool false => "False"
  | .num q => toString q.num ++ (if q.den == 1 then "" else "?") 
  | .str s => s
  | .arr _ => "[...]"
  | .obj _ => "\x7b...\x7d"

/-- Python slicing `s[:50]`. -/
def pyTake50 (s : String) : String := ⟨s.data.take 50⟩

/-! ## Request/response models (the pydantic classes) -/

structure MathQuestion where
  text : String
  inputMode : String
  confidence : ℚ
  requiresHITL : Bool
deriving DecidableEq

structure Step where
  step : Int
  description : String
  latex : String
deriving DecidableEq

structure FinalAnswer where
  latex : String
  confidence : ℚ
deriving DecidableEq

structure Verification where
  status : String
  method : String
deriving DecidableEq

structure AgentResult where
  name : String
  result : String
  timestamp : String
deriving DecidableEq

structure SolutionResponse where
  finalAnswer : FinalAnswer
  steps : List Step
  verification : Verification
  agentTrace : List String
  hitlApplied : Bool
  agentResults : List AgentResult
deriving DecidableEq

/-- One agent's return value: the `result` summary string and the
`data` payload. -/
structure StageOut where
  result : String
  data : Json

/-! ## `handle_casual_query`

`datetime.now().isoformat()` is abstracted as the `ts` parameter. -/

def response_map : List (String × String) :=
  [("hi", "Hello! I\x27m your JEE Math Mentor, here to help you solve complex mathematics problems step by step. Ask me any math question!"),
   ("hello", "Hi there! I\x27m your JEE Math Mentor, ready to assist with any mathematical problem you have. What would you like to solve today?"),
   ("hey", "Hey! I\x27m your JEE Math Mentor. I specialize in solving mathematical problems with detailed step-by-step solutions. How can I help?"),
   ("how are you", "I\x27m doing great, thank you! I\x27m your JEE Math Mentor, and I\x27m here to help you master mathematics. Do you have a math problem you\x27d like to solve?"),
   ("what can you do", "I\x27m a JEE Math Mentor specialized in solving mathematical problems! I can help with calculus, algebra, trigonometry, geometry, and more. Just ask me any math question!"),
   ("who are you", "I\x27m your JEE Math Mentor - an AI assistant specialized in solving mathematics problems step by step. I\x27m here to help you understand and solve complex math questions!"),
   ("help", "I\x27m here to help you with mathematics! I can solve equations, integration, differentiation, trigonometry, algebra, and much more. Just type your math question and I\x27ll provide a detailed step-by-step solution.")]

def default_casual_response : String :=
  "I\x27m a JEE Math Mentor, specialized in solving mathematical problems. If you have any math questions, feel free to ask! For non-mathematical queries, I\x27m here specifically to help with math."

def findCasualResponse : List (String × String) → String → Option String
  | [], _ => none
  | (k, v) :: rest, tl => if pyInStr k tl then some v else findCasualResponse rest tl

/-- `casual_response.replace(' ', '\\ ')`. -/
def replSpaces (s : String) : String :=
  ⟨s.data.flatMap (fun c => if c = ' ' then [backslashC, ' '] else [c])⟩

def handle_casual_query (text ts : String) : SolutionResponse :=
  let text_lower := pyStrip (pyLower text)
  let casual_response := (findCasualResponse response_map text_lower).getD default_casual_response
  { finalAnswer := { latex := "\x5ctext\x7b" ++ replSpaces casual_response ++ "\x7d",
                     confidence := 1 },
    steps := [{ step := 1, description := casual_response,
                latex := "\x5ctext\x7bReady to help with math!\x7d" }],
    verification := { status := "casual_response", method := "conversational" },
    agentTrace := ["conversational_handler"],
    hitlApplied := false,
    agentResults := [{ name := "conversational_handler", result := "Handled casual query",
                       timestamp := ts }] }

/-! ## Pipeline agents -/

def parserFallbackData (question : String) : Json :=
  .obj [("problem_type", .str "mathematical problem"),
        ("concepts", .arr [.str "general math"]),
        ("normalized_question", .str question)]

def parser_agent (o : Except Unit String) (question : String) : StageOut :=
  let fb : StageOut := { result := "Identified as: mathematical problem",
                         data := parserFallbackData question }
  match o with
  | .error _ => fb
  | .ok response =>
    let body : Except Unit StageOut := do
      let parsed := extract_json_from_text response
      let parsed ←
        if pyTruthy parsed then do
          let b ← pyContains parsed "problem_type"
          if b then pure parsed else pure (parserFallbackData question)
        else pure (parserFallbackData question)
      let pt ← pyGetMethod parsed "problem_type" (.str "mathematical problem")
      pure { result := "Identified as: " ++ pyStr pt, data := parsed }
    match body with
    | .ok r => r
    | .error _ => fb

def trigStrategy : Json :=
  .obj [("strategy", .str "Trigonometric identities and equation solving"),
        ("key_steps", .arr [.str "Apply trigonometric identities to simplify",
                            .str "Solve the resulting equation",
                            .str "Verify solutions are in the given domain"])]

def integStrategy : Json :=
  .obj [("strategy", .str "Integration techniques"),
        ("key_steps", .arr [.str "Identify the integration method (substitution, parts, etc.)",
                            .str "Apply the method step by step",
                            .str "Add constant of integration and verify"])]

def diffStrategy : Json :=
  .obj [("strategy", .str "Differentiation rules"),
        ("key_steps", .arr [.str "Identify applicable differentiation rules",
                            .str "Apply rules systematically",
                            .str "Simplify the final derivative"])]

def algStrategy : Json :=
  .obj [("strategy", .str "Algebraic manipulation and solving"),
        ("key_steps", .arr [.str "Simplify and rearrange the equation",
                            .str "Solve for the unknown variable(s)",
                            .str "Verify the solution"])]

def defaultStrategy : Json :=
  .obj [("strategy", .str "Step-by-step analytical approach"),
        ("key_steps", .arr [.str "Understand the problem requirements",
                            .str "Apply appropriate mathematical techniques",
                            .str "Verify the solution"])]

/-- `strategy_map.get(problem_type, default)`: dict lookup by equality;
unhashable keys (lists, dicts) raise `TypeError`. -/
def strategyLookup (pt : Json) : Except Unit Json :=
  match pt with
  | .arr _ => .error ()
  | .obj _ => .error ()
  | .str s =>
    .ok (if s = "trigonometry" then trigStrategy
      else if s = "integration" then integStrategy
      else if s = "differentiation" then diffStrategy
      else if s = "algebra" then algStrategy
      else defaultStrategy)
  | _ => .ok defaultStrategy

def router_agent (parsed_data : Json) : Except Unit StageOut := do
  let pt ← pyGetMethod parsed_data "problem_type" (.str "unknown")
  let _concepts ← pyGetMethod parsed_data "concepts" (.arr [])
  let strategy ← strategyLookup pt
  let sname ← pyGetMethod strategy "strategy" .null
  pure { result := "Strategy selected: " ++ pyStr sname, data := strategy }

def solverFallbackData (question : String) : Json :=
  .obj [("final_answer_latex", .str "\x5ctext\x7bSolution computation in progress\x7d"),
        ("solution_steps", .arr [
          .obj [("step_number", .num 1),
                ("description", .str "Problem analysis"),
                ("latex_expression", .str ("\x5ctext\x7bAnalyzing: \x7d " ++ pyTake50 question))],
          .obj [("step_number", .num 2),
                ("description", .str "Solution approach"),
                ("latex_expression", .str "\x5ctext\x7bApplying mathematical techniques\x7d")]])]

def solverDefaultSolution : Json :=
  .obj [("final_answer_latex", .str "\x5ctext\x7bSolution requires manual review\x7d"),
        ("solution_steps", .arr [])]

def solverMissingSteps (question : String) : Json :=
  .arr [.obj [("step_number", .num 1),
              ("description", .str "Analyzing the problem"),
              ("latex_expression", .str ("\x5ctext\x7bProblem: \x7d " ++ pyTake50 question))]]

def validateStep (i : Nat) (st : Json) : Option Json :=
  match st with
  | .obj l =>
    some (.obj [("step_number", (jLookup l "step_number").getD (.num ((i + 1 : Nat) : ℚ))),
                ("description", (jLookup l "description").getD (.str ("Step " ++ toString (i + 1)))),
                ("latex_expression", (jLookup l "latex_expression").getD (.str "..."))])
  | _ => none

def validatedSteps (l : List Json) : List Json :=
  l.enum.filterMap (fun p => validateStep p.1 p.2)

def solver_agent (o : Except Unit String) (question : String)
    (strategy parsed_data : Json) : StageOut :=
  let fb : StageOut := { result := "Generated basic solution structure",
                         data := solverFallbackData question }
  match o with
  | .error _ => fb
  | .ok response =>
    let body : Except Unit StageOut := do
      let solution := extract_json_from_text response
      let solution ←
        if pyTruthy solution then do
          let b ← pyContains solution "final_answer_latex"
          if b then pure solution else pure solverDefaultSolution
        else pure solverDefaultSolution
      let hasSteps ← pyContains solution "solution_steps"
      let stepsIsList ←
        if hasSteps then do
          let sv ← pyGetItem solution "solution_steps"
          pure (match sv with | .arr _ => true | _ => false)
        else pure false
      let solution ←
        if stepsIsList then pure solution
        else pySetItem solution "solution_steps" (solverMissingSteps question)
      let sv ← pyGetItem solution "solution_steps"
      let l ← (match sv with | .arr l => Except.ok l | _ => Except.error ())
      let validated := validatedSteps l
      let solution ←
        if validated.isEmpty then pure solution
        else pySetItem solution "solution_steps" (.arr validated)
      let stepsNow ← pyGetMethod solution "solution_steps" (.arr [])
      let n ← pyLen stepsNow
      pure { result := "Generated detailed solution with " ++ toString n ++ " steps",
             data := solution }
    match body with
    | .ok r => r
    | .error _ => fb

def verifierDefaultData : Json :=
  .obj [("is_correct", .bool true), ("confidence", .num (mkRat 17 20)),
        ("verification_method", .str "logical verification"), ("issues", .arr [])]

def verifier_agent (o : Except Unit String) (question : String) (solution : Json) :
    Except Unit StageOut := do
  let _fa ← pyGetMethod solution "final_answer_latex" (.str "")
  let svp ← pyGetMethod solution "solution_steps" (.arr [])
  let _n ← pyLen svp
  let body : Except Unit StageOut := do
    let response ← o
    let verification := extract_json_from_text response
    let verification ←
      if pyTruthy verification then do
        let b ← pyContains verification "is_correct"
        if b then pure verification else pure verifierDefaultData
      else pure verifierDefaultData
    let hasConf ← pyContains verification "confidence"
    let verification ←
      if hasConf then
        match (do
            let x ← pyGetItem verification "confidence"
            match pyFloat x with
            | some c => Except.ok c
            | none => Except.error ()) with
        | .ok c => pySetItem verification "confidence" (.num c)
        | .error _ => pySetItem verification "confidence" (.num (mkRat 17 20))
      else pure verification
    let vm ← pyGetMethod verification "verification_method" (.str "logical check")
    pure { result := "Verified: " ++ pyStr vm, data := verification }
  match body with
  | .ok r => Except.ok r
  | .error _ => Except.ok { result := "Verification completed", data := verifierDefaultData }

def explainer_agent (solution : Json) : Except Unit StageOut := do
  let steps ← pyGetMethod solution "solution_steps" (.arr [])
  let n ← pyLen steps
  pure { result := "Generated explanation with " ++ toString n ++ " steps",
         data := .obj [("explanation",
           .str "Detailed solution provided with step-by-step breakdown")] }

/-! ## The `/api/solve` endpoint -/

def asStr : Json → Option String
  | .str s => some s
  | _ => none

def asIntJ : Json → Option Int
  | .num q => if q.den = 1 then some q.num else none
  | _ => none

/-- Build one response `Step` from a raw solver step entry, with the
per-step `try/except` fallback of the endpoint loop. -/
def buildStep (i : Nat) (sj : Json) : Step :=
  let fallback : Step := { step := (i : Int) + 1,
                           description := "Step " ++ toString (i + 1), latex := "..." }
  match sj with
  | .obj l =>
    let snJ := (jLookup l "step_number").getD (.num ((i + 1 : Nat) : ℚ))
    let dJ := (jLookup l "description").getD (.str ("Step " ++ toString (i + 1)))
    let lJ := (jLookup l "latex_expression").getD (.str "...")
    match asIntJ snJ, asStr dJ, asStr lJ with
    | some sn, some d, some lx => { step := sn, description := d, latex := lx }
    | _, _, _ => fallback
  | _ => fallback

/-- Python `enumerate` over the solver's step payload (strings iterate
per character; anything non-iterable raises). -/
def enumerateJson : Json → Except Unit (List Json)
  | .arr l => .ok l
  | .str s => .ok (s.data.map (fun c => Json.str ⟨[c]⟩))
  | _ => .error ()

def agent_trace_math : List String := ["parser", "router", "solver", "verifier", "explainer"]

/-- `solve_math_problem` from `run.py`: classify, short-circuit casual
queries, else run the five agents and assemble the response.  `op`,
`os`, `ov` are the completion-call outcomes seen by Parser, Solver and
Verifier; `.error` anywhere outside a stage's internal `try` is the
endpoint's HTTP 500 path. -/
def solveRun (q : MathQuestion) (op os ov : Except Unit String) (ts : String) :
    Except Unit SolutionResponse :=
  if is_math_question q.text then
    (do
      let pr := parser_agent op q.text
      let rr ← router_agent pr.data
      let sr := solver_agent os q.text rr.data pr.data
      let vr ← verifier_agent ov q.text sr.data
      let er ← explainer_agent sr.data
      let stepsJson ← pyGetMethod sr.data "solution_steps" (.arr [])
      let sl ← enumerateJson stepsJson
      let steps0 := sl.enum.map (fun p => buildStep p.1 p.2)
      let steps := if steps0.isEmpty then
          [{ step := 1, description := "Solution step",
             latex := "\x5ctext\x7bSolution in progress\x7d" : Step }]
        else steps0
      let icJ ← pyGetMethod vr.data "is_correct" (.bool true)
      let vstatus := if pyTruthy icJ then "verified" else "needs_review"
      let falJ ← pyGetMethod sr.data "final_answer_latex"
        (.str "\x5ctext\x7bComputing solution...\x7d")
      let fal ← (match asStr falJ with | some s => Except.ok s | none => Except.error ())
      let confJ ← pyGetMethod vr.data "confidence" (.num (mkRat 17 20))
      let conf ← (match pyFloat confJ with | some c => Except.ok c | none => Except.error ())
      let vmJ ← pyGetMethod vr.data "verification_method" (.str "logical verification")
      let vm ← (match asStr vmJ with | some s => Except.ok s | none => Except.error ())
      pure { finalAnswer := { latex := fal, confidence := conf },
             steps := steps,
             verification := { status := vstatus, method := vm },
             agentTrace := agent_trace_math,
             hitlApplied := decide (q.confidence < mkRat 3 4),
             agentResults := [
               { name := "parser", result := pr.result, timestamp := ts },
               { name := "router", result := rr.result, timestamp := ts },
               { name := "solver", result := sr.result, timestamp := ts },
               { name := "verifier", result := vr.result, timestamp := ts },
               { name := "explainer", result := er.result, timestamp := ts }] })
  else Except.ok (handle_casual_query q.text ts)

/-! ## Generic helper lemmas -/

def jGet (j : Json) (key : String) : Option Json :=
  match j with
  | .obj l => jLookup l key
  | _ => none

theorem except_bind_ok {α β : Type} (x : Except Unit α) (f : α → Except Unit β) (r : β) :
    (x >>= f) = .ok r ↔ ∃ a, x = .ok a ∧ f a = .ok r := by
  cases x <;> simp [Bind.bind, Except.bind]

theorem firstParse_none {cs : List (List Char)}
    (h : cs.all (fun c => (loadsL c).isNone) = true) : firstParse cs = none := by
  induction cs with
  | nil => rfl
  | cons c cs ih =>
    simp only [List.all_cons, Bool.and_eq_true] at h
    rw [firstParse]
    rw [Option.isNone_iff_eq_none] at h
    rw [h.1]
    exact ih h.2

theorem jLookup_jStore (l : List (String × Json)) (key : String) (v : Json) :
    jLookup (jStore l key v) key = some v := by
  rw [jStore]
  split
  · rename_i hany
    induction l with
    | nil => simp at hany
    | cons p l ih =>
      simp only [List.any_cons, Bool.or_eq_true] at hany
      by_cases hp : p.1 == key
      · simp [jLookup, List.find?, hp]
      · simp only [List.map_cons, hp, if_false, Bool.false_eq_true]
        rw [jLookup, List.find?]
        simp only [hp]
        rcases hany with h1 | h2
        · simp [hp] at h1
        · exact ih h2
  · induction l with
    | nil => simp [jLookup, List.find?]
    | cons p l ih =>
      rename_i hany
      simp only [List.any_cons, Bool.or_eq_true, not_or] at hany
      rw [List.cons_append, jLookup, List.find?]
      have hp : (p.1 == key) = false := by
        rcases Bool.eq_false_or_eq_true (p.1 == key) with h | h
        · exact absurd h hany.1
        · exact h
      simp only [hp]
      exact ih hany.2

/-! ## Claim theorems -/

/-- C10: `extract_json_from_text` can return a non-mapping: text that
parses directly as a scalar or array is returned as-is by the first
recovery strategy, violating the mapping-or-empty contract. -/
theorem c10_extract_non_mapping :
    extract_json_from_text "5" = Json.num 5
    ∧ (extract_json_from_text "5").isObj = false
    ∧ extract_json_from_text "[1, 2]" = Json.arr [Json.num 1, Json.num 2]
    ∧ (extract_json_from_text "[1, 2]").isObj = false :=
  ⟨rfl, rfl, rfl, rfl⟩

/-- C1 (code-bug evidence): when the Solver's completion returns a JSON
mapping whose `solution_steps` is the empty list (likewise when
extraction yields an empty mapping), `solver_agent`'s validation chain
lets the empty step list through, so the Solver's returned solution has
zero steps, contradicting the claimed ≥ 1 invariant.  The endpoint later
compensates with a synthesized step. -/
theorem c1_solver_empty_steps :
    jGet (solver_agent
        (Except.ok "\x7b\"final_answer_latex\": \"x=2\", \"solution_steps\": []\x7d")
        "Solve x^2 - 5x + 6 = 0" defaultStrategy
        (parserFallbackData "Solve x^2 - 5x + 6 = 0")).data "solution_steps"
      = some (Json.arr [])
    ∧ jGet (solver_agent (Except.ok "no json in this completion at all")
        "Solve x^2 - 5x + 6 = 0" defaultStrategy
        (parserFallbackData "Solve x^2 - 5x + 6 = 0")).data "solution_steps"
      = some (Json.arr []) :=
  ⟨rfl, rfl⟩

/-- C2: whenever the classifier marks the text non-math, the endpoint
returns the canned conversational response: agentTrace is exactly the
conversational handler, verification.status is `casual_response`,
hitlApplied is false, and the result is independent of the completion
oracles (no pipeline stage is invoked). -/
theorem c2_casual_short_circuit (q : MathQuestion) (op os ov : Except Unit String)
    (ts : String) (h : is_math_question q.text = false) :
    solveRun q op os ov ts = Except.ok (handle_casual_query q.text ts)
    ∧ (handle_casual_query q.text ts).agentTrace = ["conversational_handler"]
    ∧ (handle_casual_query q.text ts).verification.status = "casual_response"
    ∧ (handle_casual_query q.text ts).hitlApplied = false
    ∧ ∀ op2 os2 ov2 : Except Unit String, solveRun q op os ov ts = solveRun q op2 os2 ov2 ts := by
  refine ⟨by simp [solveRun, h], rfl, rfl, rfl, ?_⟩
  intro op2 os2 ov2
  simp [solveRun, h]

/-- C2 witness at the input `"hello"`. -/
theorem c2_witness :
    is_math_question "hello" = false
    ∧ (solveRun ⟨"hello", "text", mkRat 9 10, false⟩ (.error ()) (.error ()) (.error ()) "T").toOption.map
        (fun r => (r.agentTrace, r.verification.status, r.hitlApplied))
      = some (["conversational_handler"], "casual_response", false) := by
  have h : is_math_question "hello" = false := rfl
  refine ⟨h, ?_⟩
  have h2 := c2_casual_short_circuit ⟨"hello", "text", mkRat 9 10, false⟩
    (.error ()) (.error ()) (.error ()) "T" h
  rw [h2.1]
  rfl

/-- C3 counterexample: `"hello there"` is vetoed (classified non-math at
the veto stage) although its normalization equals none of the fixed
phrases — the veto also fires on proper prefixes, refuting the claimed
exact-match-only behavior. -/
theorem c3_counterexample :
    vetoHit (pyStrip (pyLower "hello there")) = true
    ∧ is_math_question "hello there" = false
    ∧ (greetings ++ casual_queries).all
        (fun g => !(pyStrip (pyLower "hello there") == g)) = true :=
  ⟨rfl, rfl, rfl⟩

/-- C3 amended: the veto stage fires iff the lowercased stripped text
equals one of the fixed phrases **or starts with one**; a veto hit makes
the classifier return non-math. -/
theorem c3_veto_characterization (t : String) :
    (vetoHit (pyStrip (pyLower t)) = true ↔
      ∃ g ∈ greetings ++ casual_queries,
        pyStrip (pyLower t) = g ∨ pyStartsWith (pyStrip (pyLower t)) g = true)
    ∧ (vetoHit (pyStrip (pyLower t)) = true → is_math_question t = false) := by
  constructor
  · rw [vetoHit, List.any_eq_true]
    constructor
    · rintro ⟨g, hg, hor⟩
      rcases Bool.or_eq_true _ _ |>.mp hor with h | h
      · exact ⟨g, hg, Or.inl (by simpa using h)⟩
      · exact ⟨g, hg, Or.inr h⟩
    · rintro ⟨g, hg, hor⟩
      refine ⟨g, hg, ?_⟩
      rcases hor with h | h
      · simp [h]
      · simp [h]
  · intro h
    rw [is_math_question]
    simp [h]

/-- C3 witness: `"help me please"` starts with the phrase `"help"`, so
the characterization classifies it non-math via the veto. -/
theorem c3_witness :
    is_math_question "help me please" = false
    ∧ ∃ g ∈ greetings ++ casual_queries,
        pyStrip (pyLower "help me please") = g
        ∨ pyStartsWith (pyStrip (pyLower "help me please")) g = true := by
  have h := c3_veto_characterization "help me please"
  exact ⟨h.2 rfl, h.1.mp rfl⟩

/-- C9: the solve endpoint ignores `inputMode` and `requiresHITL`: two
requests equal in `text` and `confidence` produce identical responses
under the same completion oracles. -/
theorem c9_unused_fields_noninterference (q1 q2 : MathQuestion)
    (op os ov : Except Unit String) (ts : String)
    (ht : q1.text = q2.text) (hc : q1.confidence = q2.confidence) :
    solveRun q1 op os ov ts = solveRun q2 op os ov ts := by
  cases q1
  cases q2
  cases ht
  cases hc
  rfl

/-- C9 witness: two concrete requests differing only in `inputMode` and
`requiresHITL`. -/
theorem c9_witness :
    solveRun ⟨"what is 2+2", "text", mkRat 1 2, false⟩ (.error ()) (.error ()) (.error ()) "T"
      = solveRun ⟨"what is 2+2", "voice", mkRat 1 2, true⟩ (.error ()) (.error ()) (.error ()) "T" :=
  c9_unused_fields_noninterference _ _ _ _ _ _ rfl rfl

/-- C7: the Router's strategy lookup is total: for every `problemType`
string, including ones absent from the static table, `router_agent`
returns (without error) a strategy whose name is non-empty and whose
key-step list is non-empty. -/
theorem c7_router_total (pt : String) :
    ∃ (r : StageOut) (sname : String) (steps : List Json),
      router_agent (Json.obj [("problem_type", Json.str pt)]) = Except.ok r
      ∧ jGet r.data "strategy" = some (Json.str sname) ∧ sname ≠ ""
      ∧ jGet r.data "key_steps" = some (Json.arr steps) ∧ steps ≠ [] := by
  by_cases h1 : pt = "trigonometry"
  · subst h1
    exact ⟨_, "Trigonometric identities and equation solving", _, rfl, rfl, by decide, rfl,
      by simp⟩
  by_cases h2 : pt = "integration"
  · subst h2
    exact ⟨_, "Integration techniques", _, rfl, rfl, by decide, rfl, by simp⟩
  by_cases h3 : pt = "differentiation"
  · subst h3
    exact ⟨_, "Differentiation rules", _, rfl, rfl, by decide, rfl, by simp⟩
  by_cases h4 : pt = "algebra"
  · subst h4
    exact ⟨_, "Algebraic manipulation and solving", _, rfl, rfl, by decide, rfl, by simp⟩
  · have hR : router_agent (Json.obj [("problem_type", Json.str pt)]) =
        Except.ok ⟨"Strategy selected: Step-by-step analytical approach", defaultStrategy⟩ := by
      unfold router_agent strategyLookup
      simp [pyGetMethod, jLookup, List.find?, Bind.bind, Except.bind, h1, h2, h3, h4,
        defaultStrategy, pyStr, pure, Except.pure]
    exact ⟨_, "Step-by-step analytical approach", _, hR, rfl, by decide, rfl, by simp⟩

/-- C8 counterexample: a casual-path request whose caller confidence is
below the 0.75 threshold still gets `hitlApplied = false`, refuting the
claim that the flag tracks the threshold on every path. -/
theorem c8_counterexample :
    (solveRun ⟨"hello", "text", mkRat 1 2, false⟩ (.error ()) (.error ()) (.error ())
        "T").toOption.map (fun r => r.hitlApplied) = some false
    ∧ mkRat 1 2 < mkRat 3 4 :=
  ⟨rfl, by decide⟩

/-- C8 amended: on the math-pipeline path every produced response has
`hitlApplied` equal to `confidence < 0.75`; on the casual path
`hitlApplied` is always false regardless of the confidence. -/
theorem c8_hitl_characterization :
    (∀ (q : MathQuestion) (op os ov : Except Unit String) (ts : String) (r : SolutionResponse),
        is_math_question q.text = true → solveRun q op os ov ts = Except.ok r →
        r.hitlApplied = decide (q.confidence < mkRat 3 4))
    ∧ (∀ (q : MathQuestion) (op os ov : Except Unit String) (ts : String) (r : SolutionResponse),
        is_math_question q.text = false → solveRun q op os ov ts = Except.ok r →
        r.hitlApplied = false) := by
  constructor
  · intro q op os ov ts r h hok
    unfold solveRun at hok
    simp only [h, if_true] at hok
    simp only [except_bind_ok, pure, Except.pure, Except.ok.injEq] at hok
    obtain ⟨rr, hrr, vr, hvr, er, her, sj, hsj, sl, hsl, ic, hic, fj, hfj, fs, hfs,
      cj, hcj, cq, hcq, vj, hvj, vs, hvs, hrec⟩ := hok
    subst hrec
    rfl
  · intro q op os ov ts r h hok
    unfold solveRun at hok
    simp only [h, Bool.false_eq_true, if_false, Except.ok.injEq] at hok
    subst hok
    rfl

/-- C8 witness: a math question with confidence 0.5 (below 0.75) run
through the pipeline with failing completions yields
`hitlApplied = true`. -/
theorem c8_witness :
    (solveRun ⟨"Solve x^2 - 5x + 6 = 0", "text", mkRat 1 2, false⟩ (.error ()) (.error ())
        (.error ()) "T").toOption.map (fun r => r.hitlApplied) = some true := by
  have hok : ∃ r, solveRun ⟨"Solve x^2 - 5x + 6 = 0", "text", mkRat 1 2, false⟩ (.error ())
      (.error ()) (.error ()) "T" = Except.ok r := by
    rcases hE : solveRun ⟨"Solve x^2 - 5x + 6 = 0", "text", mkRat 1 2, false⟩ (.error ())
        (.error ()) (.error ()) "T" with e | r
    · cases e
      exact absurd (congrArg Except.toOption hE) (by decide)
    · exact ⟨r, rfl⟩
  obtain ⟨r, hE⟩ := hok
  have hh := c8_hitl_characterization.1 ⟨"Solve x^2 - 5x + 6 = 0", "text", mkRat 1 2, false⟩
    (.error ()) (.error ()) (.error ()) "T" r rfl hE
  simp only [hE, Except.toOption, Option.map]
  rw [hh]
  rfl

/-- C5: when every recovery strategy of `extract_json_from_text` fails
to parse (the direct parse, every fenced capture, every brace-pattern
candidate), the function returns the empty mapping rather than raising,
and the pipeline stages treat that empty mapping as a normal degraded
outcome: Parser, Verifier and Solver each return their documented
fallback data without signalling an error. -/
theorem c5_extraction_never_raises (t : String)
    (h1 : loadsL t.data = none)
    (h2 : (fencedCaptures jsonFenceM t.data).all (fun c => (loadsL c).isNone) = true)
    (h3 : (fencedCaptures fenceM t.data).all (fun c => (loadsL c).isNone) = true)
    (h4 : (braceFindAll t.data).all (fun c => (loadsL c).isNone) = true) :
    extract_json_from_text t = Json.obj []
    ∧ (∀ q : String, parser_agent (Except.ok t) q =
        ⟨"Identified as: mathematical problem", parserFallbackData q⟩)
    ∧ (∀ q : String, verifier_agent (Except.ok t) q (solverFallbackData q) =
        Except.ok ⟨"Verified: logical verification", verifierDefaultData⟩)
    ∧ (∀ (q : String) (st pd : Json), solver_agent (Except.ok t) q st pd =
        ⟨"Generated detailed solution with 0 steps", solverDefaultSolution⟩) := by
  have hext : extract_json_from_text t = Json.obj [] := by
    rw [extract_json_from_text, extractJsonL, h1, firstParse_none h2, firstParse_none h3,
      firstParse_none h4]
  refine ⟨hext, ?_, ?_, ?_⟩
  · intro q
    unfold parser_agent
    simp only [Bind.bind, Except.bind, hext]
    rfl
  · intro q
    unfold verifier_agent
    simp only [Bind.bind, Except.bind, hext]
    rfl
  · intro q st pd
    unfold solver_agent
    simp only [Bind.bind, Except.bind, hext]
    rfl

/-- C5 witness: a completion with no structured content at all. -/
theorem c5_witness :
    extract_json_from_text "The computation failed." = Json.obj []
    ∧ parser_agent (Except.ok "The computation failed.") "what is 2+3"
      = ⟨"Identified as: mathematical problem", parserFallbackData "what is 2+3"⟩
    ∧ solver_agent (Except.ok "The computation failed.") "what is 2+3" defaultStrategy
        (parserFallbackData "what is 2+3")
      = ⟨"Generated detailed solution with 0 steps", solverDefaultSolution⟩ := by
  have h := c5_extraction_never_raises "The computation failed." rfl rfl rfl rfl
  exact ⟨h.1, h.2.1 "what is 2+3", h.2.2.2 "what is 2+3" defaultStrategy
    (parserFallbackData "what is 2+3")⟩

theorem jLookup_none_iff (l : List (String × Json)) (k : String) :
    jLookup l k = none ↔ l.any (fun p => p.1 == k) = false := by
  induction l with
  | nil => simp [jLookup, List.find?]
  | cons p l ih =>
    cases hpb : (p.1 == k) with
    | true => simp [jLookup, List.find?, hpb]
    | false =>
      rw [jLookup, List.find?, hpb]
      simp only [List.any_cons, hpb, Bool.false_or]
      rw [← jLookup]
      exact ih

theorem jLookup_some_any {l : List (String × Json)} {k : String} {v : Json}
    (h : jLookup l k = some v) : l.any (fun p => p.1 == k) = true := by
  rcases Bool.eq_false_or_eq_true (l.any (fun p => p.1 == k)) with hb | hb
  · exact hb
  · rw [(jLookup_none_iff l k).mpr hb] at h
    cases h

/-- The confidence value the amended claim C4 predicts the Verifier
stores, as a function of the extracted mapping (for a mapping containing
`is_correct`): a missing key stays missing (the endpoint's 0.85 default
applies later), an unparsable value is coerced to the default 0.85, and
a parsable numeric value passes through unchanged — with no clamping
into [0, 1]. -/
def confSpecOfExtracted (m : Json) : Option ℚ :=
  match jGet m "confidence" with
  | none => none
  | some w =>
    match pyFloat w with
    | some c => some c
    | none => some (mkRat 17 20)

/-- C4 counterexample: an upstream confidence of 2.5 is kept verbatim
and reaches `finalAnswer.confidence` unclamped, above 1.0 — refuting
the claimed [0, 1] bound and the claimed clamp. -/
theorem c4_counterexample :
    (solveRun ⟨"Solve x^2 - 5x + 6 = 0", "text", mkRat 9 10, false⟩ (.error ()) (.error ())
        (.ok "\x7b\"is_correct\": true, \"confidence\": 2.5\x7d") "T").toOption.map
      (fun r => r.finalAnswer.confidence) = some (mkRat 5 2)
    ∧ ¬(mkRat 5 2 ≤ 1) := by
  refine ⟨rfl, by decide⟩

/-- The `confidence` entry of a verifier data mapping, as a rational. -/
def confOfData (d : Json) : Option ℚ :=
  match jGet d "confidence" with
  | some (.num c) => some c
  | _ => none

/-- C4 amended: the Verifier's confidence handling coerces to a float
with default 0.85 on completion failure, on non-mapping or
`is_correct`-less extractions, and on unparsable values; a parsable
value passes through unchanged with **no clamping into [0, 1]**, and the
assembled `finalAnswer.confidence` is exactly the float of the
verifier's stored confidence (0.85 when absent), again unclamped. -/
theorem c4_confidence_characterization :
    (∀ q : String, verifier_agent (Except.error ()) q (solverFallbackData q)
        = Except.ok ⟨"Verification completed", verifierDefaultData⟩
      ∧ confOfData verifierDefaultData = some (mkRat 17 20))
    ∧ (∀ resp q : String, pyTruthy (extract_json_from_text resp) = false →
        verifier_agent (Except.ok resp) q (solverFallbackData q)
          = Except.ok ⟨"Verified: logical verification", verifierDefaultData⟩)
    ∧ (∀ (resp q : String) (l : List (String × Json)),
        extract_json_from_text resp = Json.obj l → jLookup l "is_correct" = none →
        verifier_agent (Except.ok resp) q (solverFallbackData q)
          = Except.ok ⟨"Verified: logical verification", verifierDefaultData⟩)
    ∧ (∀ (resp q : String) (l : List (String × Json)) (ic : Json),
        extract_json_from_text resp = Json.obj l → jLookup l "is_correct" = some ic →
        ∃ vr, verifier_agent (Except.ok resp) q (solverFallbackData q) = Except.ok vr
          ∧ confOfData vr.data = confSpecOfExtracted (Json.obj l))
    ∧ (∀ (q : MathQuestion) (op os ov : Except Unit String) (ts : String) (r : SolutionResponse),
        is_math_question q.text = true → solveRun q op os ov ts = Except.ok r →
        ∃ rr vr, router_agent (parser_agent op q.text).data = Except.ok rr
          ∧ verifier_agent ov q.text
              (solver_agent os q.text rr.data (parser_agent op q.text).data).data
            = Except.ok vr
          ∧ pyFloat ((jGet vr.data "confidence").getD (Json.num (mkRat 17 20)))
              = some r.finalAnswer.confidence) := by
  refine ⟨?_, ?_, ?_, ?_, ?_⟩
  · intro q
    exact ⟨rfl, rfl⟩
  · intro resp q h
    unfold verifier_agent
    simp only [Bind.bind, Except.bind, pure, Except.pure, h, Bool.false_eq_true, if_false]
    rfl
  · intro resp q l hext hnone
    have hany : l.any (fun p => p.1 == "is_correct") = false := (jLookup_none_iff l "is_correct").mp hnone
    unfold verifier_agent
    simp only [Bind.bind, Except.bind, pure, Except.pure, hext, pyTruthy, pyContains]
    cases hie : l.isEmpty with
    | true =>
      simp only [hie, Bool.not_true, Bool.false_eq_true, if_false]
      rfl
    | false =>
      simp only [hie, Bool.not_false, if_true, hany, Bool.false_eq_true, if_false]
      rfl
  · intro resp q l ic hext hic
    have hne : l ≠ [] := by
      intro he
      subst he
      simp [jLookup, List.find?] at hic
    have hie : l.isEmpty = false := by
      cases l
      · exact absurd rfl hne
      · rfl
    have hany : l.any (fun p => p.1 == "is_correct") = true := jLookup_some_any hic
    unfold verifier_agent
    simp only [Bind.bind, Except.bind, pure, Except.pure, hext, pyTruthy, pyContains, hie,
      Bool.not_false, if_true, hany]
    cases hbc : l.any (fun p => p.1 == "confidence") with
    | false =>
      have hlw : jLookup l "confidence" = none := (jLookup_none_iff l "confidence").mpr hbc
      simp only [hbc, Bool.false_eq_true, if_false, pyGetMethod, pure, Except.pure]
      refine ⟨_, rfl, ?_⟩
      simp [confOfData, jGet, hlw, confSpecOfExtracted]
    | true =>
      obtain ⟨w, hw⟩ : ∃ w, jLookup l "confidence" = some w := by
        cases hlw : jLookup l "confidence" with
        | none =>
          rw [jLookup_none_iff] at hlw
          rw [hlw] at hbc
          cases hbc
        | some w => exact ⟨w, rfl⟩
      simp only [hbc, if_true, pyGetItem, hw, pure, Except.pure]
      cases hf : pyFloat w with
      | none =>
        simp only [hf, pySetItem, pyGetMethod, pure, Except.pure]
        refine ⟨_, rfl, ?_⟩
        simp [confOfData, jGet, jLookup_jStore, confSpecOfExtracted, hw, hf]
      | some c =>
        simp only [hf, pySetItem, pyGetMethod, pure, Except.pure]
        refine ⟨_, rfl, ?_⟩
        simp [confOfData, jGet, jLookup_jStore, confSpecOfExtracted, hw, hf]
  · intro q op os ov ts r h hok
    unfold solveRun at hok
    simp only [h, if_true] at hok
    simp only [except_bind_ok, pure, Except.pure, Except.ok.injEq] at hok
    obtain ⟨rr, hrr, vr, hvr, er, her, sj, hsj, sl, hsl, ic, hic, fj, hfj, fs, hfs,
      cj, hcj, cq, hcq, vj, hvj, vs, hvs, hrec⟩ := hok
    subst hrec
    refine ⟨rr, vr, hrr, hvr, ?_⟩
    have hobj : ∃ dl, vr.data = Json.obj dl := by
      cases hd : vr.data <;> simp [pyGetMethod, hd] at hcj
      · exact ⟨_, rfl⟩
    obtain ⟨dl, hdl⟩ := hobj
    rw [hdl] at hcj
    simp only [pyGetMethod, Except.ok.injEq] at hcj
    subst hcj
    have : pyFloat ((jLookup dl "confidence").getD (Json.num (mkRat 17 20))) = some cq := by
      cases hpf : pyFloat ((jLookup dl "confidence").getD (Json.num (mkRat 17 20))) <;>
        rw [hpf] at hcq
      · cases hcq
      · cases hcq
        rfl
    rw [hdl]
    simp only [jGet]
    rw [this]

/-- C4 witness: a completion answering `"confidence": "high"` is coerced
to the 0.85 default without raising. -/
theorem c4_witness :
    confOfData verifierDefaultData = some (mkRat 17 20)
    ∧ (∃ vr, verifier_agent (Except.ok "\x7b\"is_correct\": true, \"confidence\": \"high\"\x7d")
          "q" (solverFallbackData "q") = Except.ok vr
        ∧ confOfData vr.data
            = confSpecOfExtracted (Json.obj [("is_correct", Json.bool true),
                ("confidence", Json.str "high")]))
    ∧ confSpecOfExtracted (Json.obj [("is_correct", Json.bool true),
        ("confidence", Json.str "high")]) = some (mkRat 17 20) := by
  refine ⟨(c4_confidence_characterization.1 "q").2, ?_, rfl⟩
  exact c4_confidence_characterization.2.2.2.1
    "\x7b\"is_correct\": true, \"confidence\": \"high\"\x7d" "q"
    [("is_correct", Json.bool true), ("confidence", Json.str "high")] (Json.bool true) rfl rfl

/-! ## Round-trip development for C6

Supporting lemmas: serializer output parses back to the value (for
well-formed values), and the extraction scanners recover the serialized
object from fenced and bare-prose embeddings. -/

theorem takeWhile_append_of_all {p : Char → Bool} {a : List Char} (r : List Char)
    (h : ∀ c ∈ a, p c = true) : List.takeWhile p (a ++ r) = a ++ List.takeWhile p r := by
  induction a with
  | nil => rfl
  | cons c a ih =>
    rw [List.cons_append, List.takeWhile_cons, h c (by simp)]
    rw [ih (fun x hx => h x (by simp [hx]))]
    rfl

theorem dropWhile_append_of_all {p : Char → Bool} {a : List Char} (r : List Char)
    (h : ∀ c ∈ a, p c = true) : List.dropWhile p (a ++ r) = List.dropWhile p r := by
  induction a with
  | nil => rfl
  | cons c a ih =>
    rw [List.cons_append, List.dropWhile_cons, h c (by simp)]
    exact ih (fun x hx => h x (by simp [hx]))

theorem takeWhile_cons_of_neg {p : Char → Bool} {c : Char} (s : List Char)
    (h : p c = false) : List.takeWhile p (c :: s) = [] := by
  rw [List.takeWhile_cons, h]
  rfl

theorem dropWhile_cons_of_neg {p : Char → Bool} {c : Char} (s : List Char)
    (h : p c = false) : List.dropWhile p (c :: s) = c :: s := by
  rw [List.dropWhile_cons, h]
  rfl

theorem digit_ne {c : Char} (h : isDigitC c = true) {d : Char} (hd : isDigitC d = false) :
    c ≠ d := by
  intro he
  rw [he, hd] at h
  cases h

theorem digit_not_jsonWs {c : Char} (h : isDigitC c = true) : isJsonWs c = false := by
  have h1 : c ≠ ' ' := digit_ne h (by decide)
  have h2 : c ≠ '\t' := digit_ne h (by decide)
  have h3 : c ≠ '\n' := digit_ne h (by decide)
  have h4 : c ≠ '\r' := digit_ne h (by decide)
  simp [isJsonWs, h1, h2, h3, h4]

/-- Correctness of `natDigitsAux`: non-empty, all digits, and folding
the digits recovers the number. -/
theorem natDigitsAux_spec : ∀ f n, n < f →
    natDigitsAux f n ≠ []
    ∧ (∀ c ∈ natDigitsAux f n, isDigitC c = true)
    ∧ ∀ acc, List.foldl (fun a c => 10 * a + (c.toNat - 48)) acc (natDigitsAux f n)
        = acc * 10 ^ (natDigitsAux f n).length + n := by
  intro f
  induction f with
  | zero => intro n hn; omega
  | succ f ih =>
    intro n hn
    by_cases h10 : n < 10
    · rw [natDigitsAux, if_pos h10]
      refine ⟨by simp, ?_, ?_⟩
      · intro c hc
        simp only [List.mem_singleton] at hc
        subst hc
        interval_cases n <;> decide
      · intro acc
        have hv : (Char.ofNat (48 + n)).toNat = 48 + n := by
          interval_cases n <;> decide
        simp [hv]
        omega
    · rw [natDigitsAux, if_neg h10]
      have hrec : n / 10 < f := by
        have : n / 10 < n := Nat.div_lt_self (by omega) (by omega)
        omega
      obtain ⟨hne, hdig, hfold⟩ := ih (n / 10) hrec
      have hm : n % 10 < 10 := Nat.mod_lt _ (by omega)
      have hv : (Char.ofNat (48 + n % 10)).toNat = 48 + n % 10 := by
        set m := n % 10 with hmm
        interval_cases m <;> decide
      have hdigLast : isDigitC (Char.ofNat (48 + n % 10)) = true := by
        set m := n % 10 with hmm
        interval_cases m <;> decide
      refine ⟨by simp, ?_, ?_⟩
      · intro c hc
        rw [List.mem_append] at hc
        rcases hc with hc | hc
        · exact hdig c hc
        · simp only [List.mem_singleton] at hc
          subst hc
          exact hdigLast
      · intro acc
        rw [List.foldl_append, hfold acc]
        simp only [List.foldl, List.length_append, List.length_singleton, hv]
        rw [pow_succ]
        have := Nat.div_add_mod n 10
        ring_nf
        omega

theorem natDigits_spec (n : Nat) :
    natDigits n ≠ []
    ∧ (∀ c ∈ natDigits n, isDigitC c = true)
    ∧ digitsToNat (natDigits n) = n := by
  obtain ⟨h1, h2, h3⟩ := natDigitsAux_spec (n + 1) n (by omega)
  exact ⟨h1, h2, by have := h3 0; simpa [digitsToNat] using this⟩

def stopOkP (rest : List Char) : Prop :=
  match rest with
  | [] => True
  | c :: _ => isDigitC c = false ∧ c ≠ '.'

theorem parseNum_natDigits (m : Nat) (rest : List Char) (hstop : stopOkP rest) :
    parseNum (natDigits m ++ rest) = some (Json.num (m : ℚ), rest) := by
  obtain ⟨hne, hdig, hval⟩ := natDigits_spec m
  obtain ⟨d, ds, hds⟩ : ∃ d ds, natDigits m = d :: ds := by
    cases h : natDigits m with
    | nil => exact absurd h hne
    | cons d ds => exact ⟨d, ds, rfl⟩
  have hd : isDigitC d = true := hdig d (by rw [hds]; simp)
  have hdm : d ≠ '-' := digit_ne hd (by decide)
  have hsplit1 : List.takeWhile isDigitC (natDigits m ++ rest)
      = natDigits m ++ List.takeWhile isDigitC rest := takeWhile_append_of_all rest hdig
  have hsplit2 : List.dropWhile isDigitC (natDigits m ++ rest)
      = List.dropWhile isDigitC rest := dropWhile_append_of_all rest hdig
  have hrest1 : List.takeWhile isDigitC rest = [] := by
    cases rest with
    | nil => rfl
    | cons c r => exact takeWhile_cons_of_neg r hstop.1
  have hrest2 : List.dropWhile isDigitC rest = rest := by
    cases rest with
    | nil => rfl
    | cons c r => exact dropWhile_cons_of_neg r hstop.1
  rw [parseNum.eq_def]
  rw [hds, List.cons_append]
  simp only [if_neg hdm]
  rw [← List.cons_append, ← hds, hsplit1, hsplit2, hrest1, hrest2, List.append_nil]
  simp only [hne, if_false]
  cases rest with
  | nil => simp [hval]
  | cons c r =>
    have hc : c ≠ '.' := hstop.2
    simp [if_neg hc, hval]

theorem parseStrBody_safe (s : List Char) (rest : List Char)
    (h : ∀ c ∈ s, safeC c = true) :
    parseStrBody (s ++ quoteC :: rest) = some (s, rest) := by
  induction s with
  | nil =>
    rw [List.nil_append, parseStrBody.eq_def]
    simp
  | cons c s ih =>
    have hc := h c (by simp)
    have h1 : c ≠ quoteC := by
      intro he
      rw [he] at hc
      cases hc
    have h2 : c ≠ backslashC := by
      intro he
      rw [he] at hc
      cases hc
    have h3 : ¬(c.toNat < 32) := by
      simp only [safeC, Bool.and_eq_true, decide_eq_true_eq] at hc
      omega
    rw [List.cons_append, parseStrBody.eq_def]
    simp only [if_neg h1, if_neg h2, if_neg h3]
    rw [ih (fun x hx => h x (by simp [hx]))]
    rfl

theorem rat_of_wf_num {q : ℚ} (hden : q.den = 1) (hnum : 0 ≤ q.num) :
    ((q.num.toNat : Nat) : ℚ) = q := by
  have h1 : ((q.num.toNat : ℤ) : ℚ) = (q.num : ℚ) := by
    rw [Int.toNat_of_nonneg hnum]
  have h2 : (q.num : ℚ) = q := by
    rw [← Rat.num_div_den q, hden]
    norm_num
  push_cast at h1
  rw [h1, h2]

theorem parseValue_skip_ws (f : Nat) (a s : List Char)
    (h : ∀ c ∈ a, isJsonWs c = true) : parseValue f (a ++ s) = parseValue f s := by
  cases f with
  | zero => rfl
  | succ f =>
    rw [parseValue, parseValue]
    rw [show skipWs (a ++ s) = skipWs s from dropWhile_append_of_all s h]

/-- Every well-formed serialization starts with a non-whitespace
character that is not `]`, not `\x7d` and not `,`. -/
theorem serV_head (j : Json) (hwf : wfV j = true) :
    ∃ c t, serV j = c :: t ∧ isJsonWs c = false ∧ c ≠ ']' ∧ c ≠ closeB ∧ c ≠ ',' := by
  cases j with
  | null => exact ⟨'n', _, rfl, by decide, by decide, by decide, by decide⟩
  | bool b =>
    cases b with
    | true => exact ⟨'t', _, rfl, by decide, by decide, by decide, by decide⟩
    | false => exact ⟨'f', _, rfl, by decide, by decide, by decide, by decide⟩
  | num q =>
    obtain ⟨hne, hdig, _⟩ := natDigits_spec q.num.toNat
    obtain ⟨d, ds, hds⟩ : ∃ d ds, natDigits q.num.toNat = d :: ds := by
      cases h : natDigits q.num.toNat with
      | nil => exact absurd h hne
      | cons d ds => exact ⟨d, ds, rfl⟩
    have hd : isDigitC d = true := hdig d (by rw [hds]; simp)
    exact ⟨d, ds, by rw [serV, hds], digit_not_jsonWs hd, digit_ne hd (by decide),
      digit_ne hd (by decide), digit_ne hd (by decide)⟩
  | str s => exact ⟨quoteC, _, rfl, by decide, by decide, by decide, by decide⟩
  | arr xs => exact ⟨'[', _, rfl, by decide, by decide, by decide, by decide⟩
  | obj kvs => exact ⟨openB, _, rfl, by decide, by decide, by decide, by decide⟩

theorem serElems_cons (x : Json) (xs : List Json) :
    ∃ t2, serElems (x :: xs) = serV x ++ t2
      ∧ (xs = [] → t2 = [])
      ∧ (xs ≠ [] → t2 = ',' :: ' ' :: serElems xs) := by
  cases xs with
  | nil =>
    refine ⟨[], ?_, fun _ => rfl, fun h => absurd rfl h⟩
    simp [serElems]
  | cons y ys =>
    refine ⟨',' :: ' ' :: serElems (y :: ys), ?_, fun h => by simp at h, fun _ => rfl⟩
    rw [serElems]

theorem serMembers_cons (k : String) (v : Json) (kvs : List (String × Json)) :
    ∃ t2, serMembers ((k, v) :: kvs)
        = quoteC :: k.data ++ quoteC :: ':' :: ' ' :: serV v ++ t2
      ∧ (kvs = [] → t2 = [])
      ∧ (kvs ≠ [] → t2 = ',' :: ' ' :: serMembers kvs) := by
  cases kvs with
  | nil =>
    refine ⟨[], ?_, fun _ => rfl, fun h => absurd rfl h⟩
    simp [serMembers]
  | cons m ms =>
    refine ⟨',' :: ' ' :: serMembers (m :: ms), ?_, fun h => by simp at h, fun _ => rfl⟩
    rw [serMembers]

theorem serMembers_head (kvs : List (String × Json)) (h : kvs ≠ []) :
    ∃ t, serMembers kvs = quoteC :: t := by
  cases kvs with
  | nil => exact absurd rfl h
  | cons m ms =>
    obtain ⟨k, v⟩ := m
    obtain ⟨t2, he, _, _⟩ := serMembers_cons k v ms
    exact ⟨_, by rw [he]; rfl⟩

theorem parseValue_cons (f : Nat) (c : Char) (r : List Char) (h : isJsonWs c = false) :
    parseValue (Nat.succ f) (c :: r) =
      (if c = openB then
        match skipWs r with
        | [] => none
        | c2 :: r2 =>
          if c2 = closeB then some (Json.obj [], r2)
          else (parseMembers f (c2 :: r2)).map (fun p => (Json.obj p.1, p.2))
      else if c = '[' then
        match skipWs r with
        | [] => none
        | c2 :: r2 =>
          if c2 = ']' then some (Json.arr [], r2)
          else (parseElems f (c2 :: r2)).map (fun p => (Json.arr p.1, p.2))
      else if c = quoteC then (parseStrBody r).map (fun p => (Json.str ⟨p.1⟩, p.2))
      else if c = 't' then
        if isLitPrefix ['t', 'r', 'u', 'e'] (c :: r) then some (Json.bool true, r.drop 3)
        else none
      else if c = 'f' then
        if isLitPrefix ['f', 'a', 'l', 's', 'e'] (c :: r) then some (Json.bool false, r.drop 4)
        else none
      else if c = 'n' then
        if isLitPrefix ['n', 'u', 'l', 'l'] (c :: r) then some (Json.null, r.drop 3)
        else none
      else if c = '-' || isDigitC c then parseNum (c :: r)
      else none) := by
  rw [parseValue, skipWs, dropWhile_cons_of_neg _ h]

theorem parseMembers_cons (f : Nat) (c : Char) (r : List Char) :
    parseMembers (Nat.succ f) (c :: r) =
      (if c = quoteC then
        match parseStrBody r with
        | none => none
        | some (kcs, r2) =>
          match skipWs r2 with
          | ':' :: r4 =>
            match parseValue f r4 with
            | none => none
            | some (v, r5) =>
              match skipWs r5 with
              | [] => none
              | ch :: r7 =>
                if ch = ',' then
                  match parseMembers f (skipWs r7) with
                  | none => none
                  | some (kvs, r8) => some ((⟨kcs⟩, v) :: kvs, r8)
                else if ch = closeB then some ([(⟨kcs⟩, v)], r7)
                else none
          | _ => none
      else none) := by
  rw [parseMembers]

theorem roundTrip : ∀ fuel,
    (∀ j rest, wfV j = true → reqV j ≤ fuel → stopOkP rest →
      parseValue fuel (serV j ++ rest) = some (j, rest))
    ∧ (∀ kvs rest, kvs ≠ [] → wfM kvs = true → reqM kvs ≤ fuel →
      parseMembers fuel (serMembers kvs ++ closeB :: rest) = some (kvs, rest))
    ∧ (∀ xs a rest, xs ≠ [] → (∀ c ∈ a, isJsonWs c = true) → wfE xs = true →
      reqE xs ≤ fuel →
      parseElems fuel (a ++ (serElems xs ++ ']' :: rest)) = some (xs, rest)) := by
  intro fuel
  induction fuel with
  | zero =>
    refine ⟨?_, ?_, ?_⟩
    · intro j rest _ hreq _
      cases j <;> simp [reqV] at hreq
    · intro kvs rest _ _ hreq
      cases kvs with
      | nil => simp [reqM] at hreq
      | cons m t =>
        obtain ⟨k, v⟩ := m
        simp [reqM] at hreq
    · intro xs a rest _ _ _ hreq
      cases xs <;> simp [reqE] at hreq
  | succ f ih =>
    obtain ⟨ihV, ihM, ihE⟩ := ih
    refine ⟨?_, ?_, ?_⟩
    · intro j rest hwf hreq hstop
      cases j with
      | null =>
        rw [serV]
        rw [show (['n', 'u', 'l', 'l'] : List Char) ++ rest
          = 'n' :: ('u' :: 'l' :: 'l' :: rest) from rfl]
        rw [parseValue_cons f _ _ (by decide)]
        simp [openB, quoteC, isLitPrefix, List.isPrefixOf]
      | bool b =>
        cases b with
        | true =>
          rw [serV]
          rw [show (['t', 'r', 'u', 'e'] : List Char) ++ rest
            = 't' :: ('r' :: 'u' :: 'e' :: rest) from rfl]
          rw [parseValue_cons f _ _ (by decide)]
          simp [openB, quoteC, isLitPrefix, List.isPrefixOf]
        | false =>
          rw [serV]
          rw [show (['f', 'a', 'l', 's', 'e'] : List Char) ++ rest
            = 'f' :: ('a' :: 'l' :: 's' :: 'e' :: rest) from rfl]
          rw [parseValue_cons f _ _ (by decide)]
          simp [openB, quoteC, isLitPrefix, List.isPrefixOf]
      | str s =>
        rw [wfV, List.all_eq_true] at hwf
        rw [serV]
        rw [show (quoteC :: s.data ++ [quoteC]) ++ rest = quoteC :: (s.data ++ quoteC :: rest)
          by simp]
        rw [parseValue_cons f _ _ (by decide)]
        rw [if_neg (show ¬(quoteC = openB) by decide)]
        rw [if_neg (show ¬(quoteC = '[') by decide)]
        rw [if_pos rfl]
        rw [parseStrBody_safe s.data rest (fun c hc => hwf c hc)]
        rfl
      | num q =>
        rw [wfV, Bool.and_eq_true, beq_iff_eq, decide_eq_true_eq] at hwf
        obtain ⟨hden, hnum⟩ := hwf
        obtain ⟨hne, hdig, _⟩ := natDigits_spec q.num.toNat
        obtain ⟨d, ds, hds⟩ : ∃ d ds, natDigits q.num.toNat = d :: ds := by
          cases h : natDigits q.num.toNat with
          | nil => exact absurd h hne
          | cons d ds => exact ⟨d, ds, rfl⟩
        have hd : isDigitC d = true := hdig d (by rw [hds]; simp)
        rw [serV, hds, List.cons_append]
        rw [parseValue_cons f _ _ (digit_not_jsonWs hd)]
        rw [if_neg (digit_ne hd (by decide) : d ≠ openB)]
        rw [if_neg (digit_ne hd (by decide) : d ≠ '[')]
        rw [if_neg (digit_ne hd (by decide) : d ≠ quoteC)]
        rw [if_neg (digit_ne hd (by decide) : d ≠ 't')]
        rw [if_neg (digit_ne hd (by decide) : d ≠ 'f')]
        rw [if_neg (digit_ne hd (by decide) : d ≠ 'n')]
        rw [if_pos (by rw [hd]; simp)]
        rw [← List.cons_append, ← hds, parseNum_natDigits _ rest hstop]
        rw [rat_of_wf_num hden hnum]
      | arr xs =>
        rw [wfV] at hwf
        rw [reqV] at hreq
        cases xs with
        | nil =>
          rw [serV, serElems]
          rw [show (('[' :: [] ++ [']']) : List Char) ++ rest = '[' :: (']' :: rest) from rfl]
          rw [parseValue_cons f _ _ (by decide)]
          simp [openB, skipWs, List.dropWhile, isJsonWs]
        | cons x xs2 =>
          obtain ⟨t2, he2, _, _⟩ := serElems_cons x xs2
          have hwx : wfV x = true := by
            rw [wfE, Bool.and_eq_true] at hwf
            exact hwf.1
          obtain ⟨c, t, hct, hnws, hnsb, _, _⟩ := serV_head x hwx
          rw [serV]
          rw [show ('[' :: serElems (x :: xs2) ++ [']']) ++ rest
            = '[' :: (serElems (x :: xs2) ++ ']' :: rest) by simp]
          rw [parseValue_cons f _ _ (by decide)]
          rw [if_neg (show ¬('[' = openB) by decide), if_pos rfl]
          have hskip : skipWs (serElems (x :: xs2) ++ ']' :: rest)
              = serElems (x :: xs2) ++ ']' :: rest := by
            rw [he2, hct]
            rw [show (c :: t ++ t2) ++ ']' :: rest = c :: (t ++ t2 ++ ']' :: rest) by simp]
            exact dropWhile_cons_of_neg _ hnws
          rw [hskip]
          have hcons : serElems (x :: xs2) ++ ']' :: rest
              = c :: (t ++ t2 ++ ']' :: rest) := by
            rw [he2, hct]
            simp
          rw [hcons]
          have := ihE (x :: xs2) [] rest (by simp) (by simp) hwf (by omega)
          rw [List.nil_append, hcons] at this
          simp only [hnsb, if_false, this]
          rfl
      | obj kvs =>
        rw [wfV] at hwf
        rw [reqV] at hreq
        cases kvs with
        | nil =>
          rw [serV, serMembers]
          rw [show ((openB :: [] ++ [closeB]) : List Char) ++ rest
            = openB :: (closeB :: rest) from rfl]
          rw [parseValue_cons f _ _ (by decide)]
          simp [skipWs, List.dropWhile, isJsonWs, closeB]
        | cons m kvs2 =>
          obtain ⟨tm, hm⟩ := serMembers_head (m :: kvs2) (by simp)
          rw [serV]
          rw [show (openB :: serMembers (m :: kvs2) ++ [closeB]) ++ rest
            = openB :: (serMembers (m :: kvs2) ++ closeB :: rest) by simp]
          rw [parseValue_cons f _ _ (by decide)]
          rw [if_pos rfl]
          have hskip : skipWs (serMembers (m :: kvs2) ++ closeB :: rest)
              = serMembers (m :: kvs2) ++ closeB :: rest := by
            rw [hm, List.cons_append]
            exact dropWhile_cons_of_neg _ (by decide)
          rw [hskip]
          have hcons : serMembers (m :: kvs2) ++ closeB :: rest
              = quoteC :: (tm ++ closeB :: rest) := by
            rw [hm]
            simp
          rw [hcons]
          have := ihM (m :: kvs2) rest (by simp) hwf (by omega)
          rw [hm, List.cons_append] at this
          simp only [show ¬(quoteC = closeB) from by decide, if_false, this]
          rfl
    · intro kvs rest hne hwf hreq
      obtain ⟨⟨k, v⟩, tail, rfl⟩ : ∃ m t, kvs = m :: t := by
        cases kvs with
        | nil => exact absurd rfl hne
        | cons m t => exact ⟨m, t, rfl⟩
      rw [wfM, Bool.and_eq_true, Bool.and_eq_true, Bool.and_eq_true] at hwf
      obtain ⟨⟨⟨hksafe, _⟩, hwv⟩, hwtail⟩ := hwf
      rw [reqM] at hreq
      obtain ⟨t2, he2, ht2nil, ht2cons⟩ := serMembers_cons k v tail
      rw [he2]
      rw [show (quoteC :: k.data ++ quoteC :: ':' :: ' ' :: serV v ++ t2) ++ closeB :: rest
        = quoteC :: (k.data ++ quoteC :: (':' :: ' ' :: (serV v ++ (t2 ++ closeB :: rest))))
        by simp]
      rw [parseMembers_cons]
      rw [if_pos rfl]
      rw [List.all_eq_true] at hksafe
      rw [parseStrBody_safe k.data _ (fun c hc => hksafe c hc)]
      simp only [show skipWs (':' :: ' ' :: (serV v ++ (t2 ++ closeB :: rest)))
        = ':' :: ' ' :: (serV v ++ (t2 ++ closeB :: rest))
        from dropWhile_cons_of_neg _ (by decide)]
      simp only [show parseValue f (' ' :: (serV v ++ (t2 ++ closeB :: rest)))
        = parseValue f (serV v ++ (t2 ++ closeB :: rest))
        from parseValue_skip_ws f [' '] _ (by simp [isJsonWs])]
      cases tail with
      | nil =>
        rw [ht2nil rfl] at *
        simp only [List.nil_append]
        simp only [ihV v (closeB :: rest) hwv (by omega) (by constructor <;> decide)]
        simp only [show skipWs (closeB :: rest) = closeB :: rest
          from dropWhile_cons_of_neg _ (by decide)]
        simp only [show ¬(closeB = ',') from by decide, if_false]
        rfl
      | cons m2 tail2 =>
        rw [ht2cons (by simp)] at *
        simp only [show (',' :: ' ' :: serMembers (m2 :: tail2)) ++ closeB :: rest
          = ',' :: ' ' :: (serMembers (m2 :: tail2) ++ closeB :: rest) from by simp]
        simp only [ihV v (',' :: ' ' :: (serMembers (m2 :: tail2) ++ closeB :: rest)) hwv
          (by omega) (by constructor <;> decide)]
        simp only [show skipWs (',' :: ' ' :: (serMembers (m2 :: tail2) ++ closeB :: rest))
          = ',' :: ' ' :: (serMembers (m2 :: tail2) ++ closeB :: rest)
          from dropWhile_cons_of_neg _ (by decide)]
        obtain ⟨tm, hm⟩ := serMembers_head (m2 :: tail2) (by simp)
        simp only [show skipWs (' ' :: (serMembers (m2 :: tail2) ++ closeB :: rest))
          = serMembers (m2 :: tail2) ++ closeB :: rest by
            rw [skipWs, List.dropWhile_cons]
            simp only [show isJsonWs ' ' = true by decide, if_true]
            rw [hm, List.cons_append, ← skipWs, show skipWs (quoteC :: (tm ++ closeB :: rest))
              = quoteC :: (tm ++ closeB :: rest) from dropWhile_cons_of_neg _ (by decide)]]
        simp only [ihM (m2 :: tail2) rest (by simp) hwtail (by omega)]
        rfl
    · intro xs a rest hne hwsa hwf hreq
      obtain ⟨x, tail, rfl⟩ : ∃ y t, xs = y :: t := by
        cases xs with
        | nil => exact absurd rfl hne
        | cons y t => exact ⟨y, t, rfl⟩
      rw [wfE, Bool.and_eq_true] at hwf
      obtain ⟨hwx, hwtail⟩ := hwf
      rw [reqE] at hreq
      obtain ⟨t2, he2, ht2nil, ht2cons⟩ := serElems_cons x tail
      rw [he2]
      rw [parseElems]
      rw [show a ++ (serV x ++ t2 ++ ']' :: rest) = a ++ (serV x ++ (t2 ++ ']' :: rest))
        by simp]
      rw [parseValue_skip_ws f a _ hwsa]
      cases tail with
      | nil =>
        rw [ht2nil rfl] at *
        simp only [List.nil_append]
        simp only [ihV x (']' :: rest) hwx (by omega) (by constructor <;> decide)]
        simp only [show skipWs (']' :: rest) = ']' :: rest
          from dropWhile_cons_of_neg _ (by decide)]
        simp only [show ¬(']' = ',') from by decide, if_false]
        rfl
      | cons y tail2 =>
        rw [ht2cons (by simp)] at *
        simp only [show (',' :: ' ' :: serElems (y :: tail2)) ++ ']' :: rest
          = ',' :: ' ' :: (serElems (y :: tail2) ++ ']' :: rest) from by simp]
        simp only [ihV x (',' :: ' ' :: (serElems (y :: tail2) ++ ']' :: rest)) hwx (by omega)
          (by constructor <;> decide)]
        simp only [show skipWs (',' :: ' ' :: (serElems (y :: tail2) ++ ']' :: rest))
          = ',' :: ' ' :: (serElems (y :: tail2) ++ ']' :: rest)
          from dropWhile_cons_of_neg _ (by decide)]
        simp only [show ' ' :: (serElems (y :: tail2) ++ ']' :: rest)
          = [' '] ++ (serElems (y :: tail2) ++ ']' :: rest) from rfl]
        simp only [ihE (y :: tail2) [' '] rest (by simp) (by simp [isJsonWs]) hwtail (by omega)]
        rfl

theorem serV_ne_nil (j : Json) : serV j ≠ [] := by
  cases j with
  | null => simp [serV]
  | bool b => cases b <;> simp [serV]
  | num q =>
    rw [serV]
    exact (natDigits_spec q.num.toNat).1
  | str s => simp [serV]
  | arr xs => simp [serV]
  | obj kvs => simp [serV]


theorem reqV_le_serV_length : ∀ n,
    (∀ j, sizeOf j ≤ n → reqV j ≤ (serV j).length)
    ∧ (∀ kvs : List (String × Json), sizeOf kvs ≤ n → kvs ≠ [] →
      reqM kvs ≤ (serMembers kvs).length + 1)
    ∧ (∀ xs : List Json, sizeOf xs ≤ n → xs ≠ [] →
      reqE xs ≤ (serElems xs).length + 1) := by
  intro n
  induction n with
  | zero =>
    refine ⟨?_, ?_, ?_⟩
    · intro j hs
      cases j <;> simp at hs
    · intro kvs hs hne
      cases kvs with
      | nil => exact absurd rfl hne
      | cons m t => simp at hs
    · intro xs hs hne
      cases xs with
      | nil => exact absurd rfl hne
      | cons x t => simp at hs
  | succ n ih =>
    obtain ⟨ihV, ihM, ihE⟩ := ih
    refine ⟨?_, ?_, ?_⟩
    · intro j hs
      cases j with
      | null => simp [reqV, serV]
      | bool b => cases b <;> simp [reqV, serV]
      | num q =>
        rw [reqV, serV]
        simpa using List.length_pos.mpr (natDigits_spec q.num.toNat).1
      | str s => simp [reqV, serV]
      | arr xs =>
        cases xs with
        | nil => simp [reqV, reqE, serV, serElems]
        | cons x t =>
          have hm : sizeOf (x :: t) ≤ n := by
            simp at hs ⊢
            omega
          have := ihE (x :: t) hm (by simp)
          rw [reqV, serV]
          simp only [List.length_cons, List.length_append, List.length_singleton]
          omega
      | obj kvs =>
        cases kvs with
        | nil => simp [reqV, reqM, serV, serMembers]
        | cons m t =>
          have hm : sizeOf (m :: t) ≤ n := by
            simp at hs ⊢
            omega
          have := ihM (m :: t) hm (by simp)
          rw [reqV, serV]
          simp only [List.length_cons, List.length_append, List.length_singleton]
          omega
    · intro kvs hs hne
      obtain ⟨⟨k, v⟩, tail, rfl⟩ : ∃ m t, kvs = m :: t := by
        cases kvs with
        | nil => exact absurd rfl hne
        | cons m t => exact ⟨m, t, rfl⟩
      have hv : sizeOf v ≤ n := by
        simp at hs
        omega
      have hval := ihV v hv
      obtain ⟨t2, he2, ht2nil, ht2cons⟩ := serMembers_cons k v tail
      rw [reqM, he2]
      cases tail with
      | nil =>
        rw [ht2nil rfl, List.append_nil]
        simp only [List.length_cons, List.length_append, reqM]
        omega
      | cons m2 tail2 =>
        rw [ht2cons (by simp)]
        have ht : sizeOf (m2 :: tail2) ≤ n := by
          simp at hs ⊢
          omega
        have := ihM (m2 :: tail2) ht (by simp)
        simp only [List.length_cons, List.length_append]
        omega
    · intro xs hs hne
      obtain ⟨x, tail, rfl⟩ : ∃ y t, xs = y :: t := by
        cases xs with
        | nil => exact absurd rfl hne
        | cons y t => exact ⟨y, t, rfl⟩
      have hv : sizeOf x ≤ n := by
        simp at hs
        omega
      have hval := ihV x hv
      have hpos : 1 ≤ (serV x).length := List.length_pos.mpr (serV_ne_nil x)
      obtain ⟨t2, he2, ht2nil, ht2cons⟩ := serElems_cons x tail
      rw [reqE, he2]
      cases tail with
      | nil =>
        rw [ht2nil rfl, List.append_nil]
        simp only [reqE]
        omega
      | cons y tail2 =>
        rw [ht2cons (by simp)]
        have ht : sizeOf (y :: tail2) ≤ n := by
          simp at hs ⊢
          omega
        have := ihE (y :: tail2) ht (by simp)
        simp only [List.length_cons, List.length_append]
        omega

theorem loadsL_serV (j : Json) (hwf : wfV j = true) : loadsL (serV j) = some j := by
  have hreq : reqV j ≤ (serV j).length + 1 :=
    le_trans ((reqV_le_serV_length (sizeOf j)).1 j (by omega)) (Nat.le_succ _)
  have := (roundTrip ((serV j).length + 1)).1 j [] hwf hreq trivial
  rw [List.append_nil] at this
  rw [loadsL, this]
  rfl

/-! ## Character properties of the serialization, for the scanner proofs -/

def btFreeL (l : List Char) : Bool := l.all (fun c => !(c = backtickC))

def braceFreeL (l : List Char) : Bool := l.all (fun c => !(isBraceC c))

/-- Texts in which every open brace is immediately closed without nesting:
the shape matched at relative depth one by the brace regex. -/
inductive Flat : List Char → Prop
  | nil : Flat []
  | plain (c : Char) (s : List Char) : isBraceC c = false → Flat s → Flat (c :: s)
  | group (b s : List Char) : braceFreeL b = true → Flat s →
      Flat (openB :: b ++ closeB :: s)

theorem btFreeL_append (a b : List Char) :
    btFreeL (a ++ b) = (btFreeL a && btFreeL b) := by
  simp [btFreeL, List.all_append]

theorem braceFreeL_append (a b : List Char) :
    braceFreeL (a ++ b) = (braceFreeL a && braceFreeL b) := by
  simp [braceFreeL, List.all_append]

theorem safe_bt {l : List Char} (h : l.all safeC = true) : btFreeL l = true := by
  rw [btFreeL, List.all_eq_true]
  intro c hc
  have := (List.all_eq_true.mp h) c hc
  rw [safeC] at this
  simp only [Bool.and_eq_true, Bool.not_eq_true', decide_eq_false_iff_not] at this
  simp [this.2]

theorem safe_brace {l : List Char} (h : l.all safeC = true) : braceFreeL l = true := by
  rw [braceFreeL, List.all_eq_true]
  intro c hc
  have := (List.all_eq_true.mp h) c hc
  rw [safeC] at this
  simp only [Bool.and_eq_true, Bool.not_eq_true', decide_eq_false_iff_not] at this
  simp [isBraceC, this.1.1.2, this.1.2]

theorem digit_bt {l : List Char} (h : ∀ c ∈ l, isDigitC c = true) :
    btFreeL l = true := by
  rw [btFreeL, List.all_eq_true]
  intro c hc
  simpa using digit_ne (h c hc) (d := backtickC) (by decide)

theorem digit_brace {l : List Char} (h : ∀ c ∈ l, isDigitC c = true) :
    braceFreeL l = true := by
  rw [braceFreeL, List.all_eq_true]
  intro c hc
  have h1 : c ≠ openB := digit_ne (h c hc) (by decide)
  have h2 : c ≠ closeB := digit_ne (h c hc) (by decide)
  simp [isBraceC, h1, h2]

theorem braceFree_flat {l : List Char} (h : braceFreeL l = true) : Flat l := by
  induction l with
  | nil => exact Flat.nil
  | cons c s ih =>
    rw [braceFreeL, List.all_cons, Bool.and_eq_true] at h
    exact Flat.plain c s (by simpa using h.1) (ih h.2)

theorem Flat_append {a b : List Char} (ha : Flat a) (hb : Flat b) : Flat (a ++ b) := by
  induction ha with
  | nil => simpa using hb
  | plain c s hc _ ih => exact Flat.plain c (s ++ b) hc ih
  | group g s hg _ ih =>
    have : (openB :: g ++ closeB :: s) ++ b = openB :: g ++ closeB :: (s ++ b) := by
      simp
    rw [this]
    exact Flat.group g (s ++ b) hg ih

/-- Character shape of serializations of well-formed values: no backtick;
brace-free when the brace depth is zero; `Flat` when it is at most one. -/
theorem serChars : ∀ n,
    (∀ j, sizeOf j ≤ n → wfV j = true →
      btFreeL (serV j) = true
      ∧ (bdV j = 0 → braceFreeL (serV j) = true)
      ∧ (bdV j ≤ 1 → Flat (serV j)))
    ∧ (∀ kvs : List (String × Json), sizeOf kvs ≤ n → wfM kvs = true →
      btFreeL (serMembers kvs) = true
      ∧ (bdM kvs = 0 → braceFreeL (serMembers kvs) = true)
      ∧ (bdM kvs ≤ 1 → Flat (serMembers kvs)))
    ∧ (∀ xs : List Json, sizeOf xs ≤ n → wfE xs = true →
      btFreeL (serElems xs) = true
      ∧ (bdE xs = 0 → braceFreeL (serElems xs) = true)
      ∧ (bdE xs ≤ 1 → Flat (serElems xs))) := by
  intro n
  induction n with
  | zero =>
    refine ⟨?_, ?_, ?_⟩
    · intro j hs
      cases j <;> simp at hs
    · intro kvs hs
      cases kvs with
      | nil =>
        intro _
        exact ⟨rfl, fun _ => rfl, fun _ => Flat.nil⟩
      | cons m t => simp at hs
    · intro xs hs
      cases xs with
      | nil =>
        intro _
        exact ⟨rfl, fun _ => rfl, fun _ => Flat.nil⟩
      | cons x t => simp at hs
  | succ n ih =>
    obtain ⟨ihV, ihM, ihE⟩ := ih
    refine ⟨?_, ?_, ?_⟩
    · intro j hs hwf
      cases j with
      | null => exact ⟨by decide, fun _ => by decide, fun _ => braceFree_flat (by decide)⟩
      | bool b =>
        cases b
        · exact ⟨by decide, fun _ => by decide, fun _ => braceFree_flat (by decide)⟩
        · exact ⟨by decide, fun _ => by decide, fun _ => braceFree_flat (by decide)⟩
      | num q =>
        have hd := (natDigits_spec q.num.toNat).2.1
        exact ⟨digit_bt hd, fun _ => digit_brace hd,
          fun _ => braceFree_flat (digit_brace hd)⟩
      | str s =>
        rw [wfV] at hwf
        have hbt : btFreeL (serV (Json.str s)) = true := by
          rw [serV]
          have : (quoteC :: s.data ++ [quoteC]) = [quoteC] ++ s.data ++ [quoteC] := by simp
          rw [this, btFreeL_append, btFreeL_append, safe_bt hwf]
          decide
        have hbr : braceFreeL (serV (Json.str s)) = true := by
          rw [serV]
          have : (quoteC :: s.data ++ [quoteC]) = [quoteC] ++ s.data ++ [quoteC] := by simp
          rw [this, braceFreeL_append, braceFreeL_append, safe_brace hwf]
          decide
        exact ⟨hbt, fun _ => hbr, fun _ => braceFree_flat hbr⟩
      | arr xs =>
        rw [wfV] at hwf
        have hm : sizeOf xs ≤ n := by simp at hs; omega
        obtain ⟨ebt, ebr, efl⟩ := ihE xs hm hwf
        refine ⟨?_, ?_, ?_⟩
        · rw [serV]
          have : ('[' :: serElems xs ++ [']']) = ['['] ++ serElems xs ++ [']'] := by simp
          rw [this, btFreeL_append, btFreeL_append, ebt]
          decide
        · intro hbd
          rw [bdV] at hbd
          rw [serV]
          have : ('[' :: serElems xs ++ [']']) = ['['] ++ serElems xs ++ [']'] := by simp
          rw [this, braceFreeL_append, braceFreeL_append, ebr hbd]
          decide
        · intro hbd
          rw [bdV] at hbd
          rw [serV]
          exact Flat.plain '[' _ (by decide)
            (Flat_append (efl hbd) (Flat.plain ']' [] (by decide) Flat.nil))
      | obj kvs =>
        rw [wfV] at hwf
        have hm : sizeOf kvs ≤ n := by simp at hs; omega
        obtain ⟨mbt, mbr, mfl⟩ := ihM kvs hm hwf
        refine ⟨?_, ?_, ?_⟩
        · rw [serV]
          have : (openB :: serMembers kvs ++ [closeB])
              = [openB] ++ serMembers kvs ++ [closeB] := by simp
          rw [this, btFreeL_append, btFreeL_append, mbt]
          decide
        · intro hbd
          rw [bdV] at hbd
          omega
        · intro hbd
          rw [bdV] at hbd
          have hz : bdM kvs = 0 := by omega
          rw [serV]
          exact Flat.group (serMembers kvs) [] (mbr hz) Flat.nil
    · intro kvs hs hwf
      cases kvs with
      | nil => exact ⟨rfl, fun _ => rfl, fun _ => Flat.nil⟩
      | cons m tail =>
        obtain ⟨k, v⟩ := m
        rw [wfM] at hwf
        simp only [Bool.and_eq_true] at hwf
        obtain ⟨⟨⟨hk, _⟩, hv⟩, ht⟩ := hwf
        have hsv : sizeOf v ≤ n := by simp at hs; omega
        have hst : sizeOf tail ≤ n := by simp at hs; omega
        obtain ⟨vbt, vbr, vfl⟩ := ihV v hsv hv
        obtain ⟨tbt, tbr, tfl⟩ := ihM tail hst ht
        obtain ⟨t2, he2, ht2nil, ht2cons⟩ := serMembers_cons k v tail
        have ht2bt : btFreeL t2 = true := by
          cases tail with
          | nil => rw [ht2nil rfl]; rfl
          | cons m2 t3 =>
            rw [ht2cons (by simp)]
            have : (',' :: ' ' :: serMembers (m2 :: t3))
                = [',', ' '] ++ serMembers (m2 :: t3) := by simp
            rw [this, btFreeL_append, tbt]
            decide
        have hhead : (quoteC :: k.data ++ quoteC :: ':' :: ' ' :: serV v ++ t2)
            = [quoteC] ++ k.data ++ [quoteC, ':', ' '] ++ serV v ++ t2 := by simp
        refine ⟨?_, ?_, ?_⟩
        · rw [he2, hhead]
          rw [btFreeL_append, btFreeL_append, btFreeL_append, btFreeL_append,
            safe_bt hk, vbt, ht2bt]
          decide
        · intro hbd
          rw [bdM] at hbd
          have hbv : bdV v = 0 := by omega
          have hbt : bdM tail = 0 := by omega
          have ht2br : braceFreeL t2 = true := by
            cases tail with
            | nil => rw [ht2nil rfl]; rfl
            | cons m2 t3 =>
              rw [ht2cons (by simp)]
              have : (',' :: ' ' :: serMembers (m2 :: t3))
                  = [',', ' '] ++ serMembers (m2 :: t3) := by simp
              rw [this, braceFreeL_append, tbr hbt]
              decide
          rw [he2, hhead]
          rw [braceFreeL_append, braceFreeL_append, braceFreeL_append,
            braceFreeL_append, safe_brace hk, vbr hbv, ht2br]
          decide
        · intro hbd
          rw [bdM] at hbd
          have hbv : bdV v ≤ 1 := by omega
          have hbt : bdM tail ≤ 1 := by omega
          have ht2fl : Flat t2 := by
            cases tail with
            | nil => rw [ht2nil rfl]; exact Flat.nil
            | cons m2 t3 =>
              rw [ht2cons (by simp)]
              exact Flat.plain ',' _ (by decide) (Flat.plain ' ' _ (by decide) (tfl hbt))
          rw [he2, hhead]
          refine Flat_append (Flat_append ?_ (vfl hbv)) ht2fl
          refine Flat_append (Flat_append (braceFree_flat (by decide)) ?_)
            (braceFree_flat (by decide))
          exact braceFree_flat (safe_brace hk)
    · intro xs hs hwf
      cases xs with
      | nil => exact ⟨rfl, fun _ => rfl, fun _ => Flat.nil⟩
      | cons x tail =>
        rw [wfE] at hwf
        simp only [Bool.and_eq_true] at hwf
        obtain ⟨hv, ht⟩ := hwf
        have hsv : sizeOf x ≤ n := by simp at hs; omega
        have hst : sizeOf tail ≤ n := by simp at hs; omega
        obtain ⟨vbt, vbr, vfl⟩ := ihV x hsv hv
        obtain ⟨tbt, tbr, tfl⟩ := ihE tail hst ht
        obtain ⟨t2, he2, ht2nil, ht2cons⟩ := serElems_cons x tail
        refine ⟨?_, ?_, ?_⟩
        · rw [he2, btFreeL_append, vbt]
          cases tail with
          | nil => rw [ht2nil rfl]; rfl
          | cons y t3 =>
            rw [ht2cons (by simp)]
            have : (',' :: ' ' :: serElems (y :: t3))
                = [',', ' '] ++ serElems (y :: t3) := by simp
            rw [this, btFreeL_append, tbt]
            decide
        · intro hbd
          rw [bdE] at hbd
          have hbv : bdV x = 0 := by omega
          have hbt : bdE tail = 0 := by omega
          rw [he2, braceFreeL_append, vbr hbv]
          cases tail with
          | nil => rw [ht2nil rfl]; rfl
          | cons y t3 =>
            rw [ht2cons (by simp)]
            have : (',' :: ' ' :: serElems (y :: t3))
                = [',', ' '] ++ serElems (y :: t3) := by simp
            rw [this, braceFreeL_append, tbr hbt]
            decide
        · intro hbd
          rw [bdE] at hbd
          have hbv : bdV x ≤ 1 := by omega
          have hbt : bdE tail ≤ 1 := by omega
          rw [he2]
          refine Flat_append (vfl hbv) ?_
          cases tail with
          | nil => rw [ht2nil rfl]; exact Flat.nil
          | cons y t3 =>
            rw [ht2cons (by simp)]
            exact Flat.plain ',' _ (by decide) (Flat.plain ' ' _ (by decide) (tfl hbt))

theorem scanDepth_free (b : List Char) (hb : braceFreeL b = true) :
    ∀ z, scanDepth (b ++ closeB :: z) 2
      = (scanDepth z 1).map (fun p => (b ++ closeB :: p.1, p.2)) := by
  induction b with
  | nil =>
    intro z
    rw [List.nil_append, scanDepth, if_neg (by decide : ¬(closeB = openB)), if_pos rfl,
      if_neg (by decide : ¬((2 : Nat) = 1))]
    simp
  | cons c b ih =>
    intro z
    rw [braceFreeL, List.all_cons, Bool.and_eq_true] at hb
    have hob : ¬(c = openB) := by
      intro h
      rw [h] at hb
      simp [isBraceC] at hb
    have hcb : ¬(c = closeB) := by
      intro h
      rw [h] at hb
      simp [isBraceC] at hb
    rw [List.cons_append, scanDepth, if_neg hob, if_neg hcb, ih hb.2]
    cases scanDepth z 1 with
    | none => rfl
    | some p => rfl

theorem scanDepth_flat (b : List Char) (hb : Flat b) :
    ∀ z, scanDepth (b ++ closeB :: z) 1 = some (b ++ [closeB], z) := by
  induction hb with
  | nil =>
    intro z
    rw [List.nil_append, scanDepth, if_neg (by decide : ¬(closeB = openB)), if_pos rfl,
      if_pos rfl]
    simp
  | plain c s hc _ ih =>
    intro z
    have hob : ¬(c = openB) := by
      intro h
      rw [h] at hc
      simp [isBraceC] at hc
    have hcb : ¬(c = closeB) := by
      intro h
      rw [h] at hc
      simp [isBraceC] at hc
    rw [List.cons_append, scanDepth, if_neg hob, if_neg hcb, ih z]
    rfl
  | group g s hg _ ih =>
    intro z
    have h1 : (openB :: g ++ closeB :: s) ++ closeB :: z
        = openB :: (g ++ closeB :: (s ++ closeB :: z)) := by simp
    rw [h1, scanDepth, if_pos rfl]
    simp only [show ¬(2 ≤ (1 : Nat)) by omega, if_false]
    rw [scanDepth_free g hg (s ++ closeB :: z), ih z]
    simp

theorem btFreeL_mem {l : List Char} (h : btFreeL l = true) {c : Char} (hc : c ∈ l) :
    ¬(c = backtickC) := by
  have := (List.all_eq_true.mp h) c hc
  simpa using this

theorem isLitPrefix_self (m r : List Char) : isLitPrefix m (m ++ r) = true := by
  induction m with
  | nil => simp [isLitPrefix]
  | cons c m ih => simpa [isLitPrefix, List.isPrefixOf] using ih

theorem isLitPrefix_cons_ne {b c : Char} (h : ¬(c = b)) (ms s : List Char) :
    isLitPrefix (b :: ms) (c :: s) = false := by
  simp [isLitPrefix, List.isPrefixOf]
  intro he
  exact absurd he.symm h

theorem findMarker_skip (ms : List Char) :
    ∀ p1 rest, btFreeL p1 = true →
      findMarker (backtickC :: ms) (p1 ++ (backtickC :: ms) ++ rest) = some rest := by
  intro p1
  induction p1 with
  | nil =>
    intro rest _
    rw [List.nil_append, List.cons_append, findMarker,
      if_pos (by simpa using isLitPrefix_self (backtickC :: ms) rest)]
    simp
  | cons c p1 ih =>
    intro rest hbt
    rw [btFreeL, List.all_cons, Bool.and_eq_true] at hbt
    have hc : ¬(c = backtickC) := by simpa using hbt.1
    have hshape : (c :: p1) ++ (backtickC :: ms) ++ rest
        = c :: (p1 ++ (backtickC :: ms) ++ rest) := by simp
    rw [hshape, findMarker, if_neg (by simp [isLitPrefix_cons_ne hc])]
    exact ih rest hbt.2

theorem takeUntilMarker_skip (ms : List Char) :
    ∀ p1 rest, btFreeL p1 = true →
      takeUntilMarker (backtickC :: ms) (p1 ++ (backtickC :: ms) ++ rest)
        = some (p1, rest) := by
  intro p1
  induction p1 with
  | nil =>
    intro rest _
    rw [List.nil_append, List.cons_append, takeUntilMarker,
      if_pos (by simpa using isLitPrefix_self (backtickC :: ms) rest)]
    simp
  | cons c p1 ih =>
    intro rest hbt
    rw [btFreeL, List.all_cons, Bool.and_eq_true] at hbt
    have hc : ¬(c = backtickC) := by simpa using hbt.1
    have hshape : (c :: p1) ++ (backtickC :: ms) ++ rest
        = c :: (p1 ++ (backtickC :: ms) ++ rest) := by simp
    rw [hshape, takeUntilMarker, if_neg (by simp [isLitPrefix_cons_ne hc]),
      ih rest hbt.2]
    rfl

theorem findMarker_none (ms : List Char) :
    ∀ s, btFreeL s = true → findMarker (backtickC :: ms) s = none := by
  intro s
  induction s with
  | nil =>
    intro _
    rw [findMarker]
    simp
  | cons c s ih =>
    intro hbt
    rw [btFreeL, List.all_cons, Bool.and_eq_true] at hbt
    have hc : ¬(c = backtickC) := by simpa using hbt.1
    rw [findMarker, if_neg (by simp [isLitPrefix_cons_ne hc])]
    exact ih hbt.2

theorem dropTrailingWsPy_snoc_ws {c : Char} (h : isPyWs c = true) (l : List Char) :
    dropTrailingWsPy (l ++ [c]) = dropTrailingWsPy l := by
  rw [dropTrailingWsPy, dropTrailingWsPy, List.reverse_append]
  simp [List.dropWhile, h]

theorem dropTrailingWsPy_snoc_nonws {c : Char} (h : isPyWs c = false) (l : List Char) :
    dropTrailingWsPy (l ++ [c]) = l ++ [c] := by
  rw [dropTrailingWsPy, List.reverse_append]
  simp [List.dropWhile, h]

theorem braceFindAllF_skip :
    ∀ p1 f s, braceFreeL p1 = true → p1.length < f →
      braceFindAllF f (p1 ++ s) = braceFindAllF (f - p1.length) s := by
  intro p1
  induction p1 with
  | nil =>
    intro f s _ _
    simp
  | cons c p1 ih =>
    intro f s hbr hf
    rw [braceFreeL, List.all_cons, Bool.and_eq_true] at hbr
    have hob : ¬(c = openB) := by
      intro h
      rw [h] at hbr
      simp [isBraceC] at hbr
    obtain ⟨f2, rfl⟩ : ∃ f2, f = f2 + 1 := by
      cases f with
      | zero => simp at hf
      | succ f2 => exact ⟨f2, rfl⟩
    rw [List.cons_append, braceFindAllF, if_neg hob, ih f2 s hbr.2 (by simp at hf; omega)]
    have : f2 + 1 - (c :: p1).length = f2 - p1.length := by simp
    rw [this]

theorem braceFindAllF_none :
    ∀ f s, braceFreeL s = true → braceFindAllF f s = [] := by
  intro f s
  induction s generalizing f with
  | nil =>
    intro _
    cases f with
    | zero => rfl
    | succ f2 => rfl
  | cons c s ih =>
    intro hbr
    rw [braceFreeL, List.all_cons, Bool.and_eq_true] at hbr
    have hob : ¬(c = openB) := by
      intro h
      rw [h] at hbr
      simp [isBraceC] at hbr
    cases f with
    | zero => rfl
    | succ f2 =>
      rw [braceFindAllF, if_neg hob]
      exact ih f2 hbr.2

/-- First brace candidate in the tail: a serialized object whose member
text is flat is taken whole by the brace regex. -/
theorem braceFindAllF_obj (kvs : List (String × Json)) (hfl : Flat (serMembers kvs))
    (p2 : List Char) (f : Nat) :
    braceFindAllF (f + 1) (serV (Json.obj kvs) ++ p2)
      = serV (Json.obj kvs) :: braceFindAllF f p2 := by
  have hshape : serV (Json.obj kvs) ++ p2
      = openB :: (serMembers kvs ++ closeB :: p2) := by
    rw [serV]
    simp
  rw [hshape, braceFindAllF, if_pos rfl, scanDepth_flat (serMembers kvs) hfl p2]
  rw [serV]
  simp

theorem extract_via_fence (t : List Char) (j : Json) (hload : loadsL t = none)
    (hf : firstParse (fencedCaptures jsonFenceM t) = some j) :
    extractJsonL t = j := by
  rw [extractJsonL]
  simp only [hload, hf]

theorem extract_via_brace (t : List Char) (j : Json) (hload : loadsL t = none)
    (h2 : fencedCaptures jsonFenceM t = [])
    (h3 : fencedCaptures fenceM t = [])
    (hf : firstParse (braceFindAll t) = some j) :
    extractJsonL t = j := by
  rw [extractJsonL]
  simp only [hload, h2, h3, firstParse, hf]

theorem extract_default (t : List Char) (hload : loadsL t = none)
    (h2 : fencedCaptures jsonFenceM t = [])
    (h3 : fencedCaptures fenceM t = [])
    (h4 : braceFindAll t = []) :
    extractJsonL t = Json.obj [] := by
  rw [extractJsonL]
  simp only [hload, h2, h3, h4, firstParse]

theorem fencedCapturesF_succ (m : List Char) (f : Nat) (s : List Char) :
    fencedCapturesF m (f + 1) s
      = match findMarker m s with
        | none => []
        | some rest =>
          match takeUntilMarker fenceM (skipWsPy rest) with
          | none => []
          | some (content, after) =>
            dropTrailingWsPy content :: fencedCapturesF m f after := rfl

theorem fencedCaptures_none (m ms : List Char) (hm : m = backtickC :: ms)
    (t : List Char) (ht : btFreeL t = true) : fencedCaptures m t = [] := by
  rw [fencedCaptures, fencedCapturesF_succ, hm, findMarker_none ms t ht]

theorem fencedCaptures_first (p1 p2 : List Char) (kvs : List (String × Json))
    (hp1 : btFreeL p1 = true) (hser : btFreeL (serV (Json.obj kvs)) = true) :
    ∃ rest, fencedCaptures jsonFenceM
        (p1 ++ (jsonFenceM ++ ('\n' :: (serV (Json.obj kvs) ++ ('\n' :: (fenceM ++ p2))))))
      = serV (Json.obj kvs) :: rest := by
  have hjf : jsonFenceM = backtickC :: [backtickC, backtickC, 'j', 's', 'o', 'n'] := rfl
  have hff : fenceM = backtickC :: [backtickC, backtickC] := rfl
  have hfm : findMarker jsonFenceM
      (p1 ++ (jsonFenceM ++ ('\n' :: (serV (Json.obj kvs) ++ ('\n' :: (fenceM ++ p2))))))
      = some ('\n' :: (serV (Json.obj kvs) ++ ('\n' :: (fenceM ++ p2)))) := by
    have hsh : (p1 ++ (jsonFenceM ++ ('\n' :: (serV (Json.obj kvs)
          ++ ('\n' :: (fenceM ++ p2))))))
        = p1 ++ (backtickC :: [backtickC, backtickC, 'j', 's', 'o', 'n'])
          ++ ('\n' :: (serV (Json.obj kvs) ++ ('\n' :: (fenceM ++ p2)))) := by
      rw [hjf]
      simp
    rw [hsh, hjf]
    exact findMarker_skip _ p1 _ hp1
  have hAX : ∀ X : List Char, serV (Json.obj kvs) ++ X
      = openB :: ((serMembers kvs ++ [closeB]) ++ X) := by
    intro X
    rw [serV]
    simp
  have hsw : skipWsPy ('\n' :: (serV (Json.obj kvs) ++ ('\n' :: (fenceM ++ p2))))
      = serV (Json.obj kvs) ++ ('\n' :: (fenceM ++ p2)) := by
    rw [skipWsPy, List.dropWhile_cons, if_pos (by decide)]
    rw [hAX ('\n' :: (fenceM ++ p2)), List.dropWhile_cons, if_neg (by decide)]
  have htu : takeUntilMarker fenceM (serV (Json.obj kvs) ++ ('\n' :: (fenceM ++ p2)))
      = some (serV (Json.obj kvs) ++ ['\n'], p2) := by
    have hsh2 : serV (Json.obj kvs) ++ ('\n' :: (fenceM ++ p2))
        = (serV (Json.obj kvs) ++ ['\n'])
          ++ (backtickC :: [backtickC, backtickC]) ++ p2 := by
      rw [hff]
      simp
    rw [hsh2, hff]
    exact takeUntilMarker_skip _ _ p2 (by rw [btFreeL_append, hser]; decide)
  have hdt : dropTrailingWsPy (serV (Json.obj kvs) ++ ['\n']) = serV (Json.obj kvs) := by
    rw [dropTrailingWsPy_snoc_ws (by decide)]
    have hsh3 : serV (Json.obj kvs) = (openB :: serMembers kvs) ++ [closeB] := by
      rw [serV]
    rw [hsh3, dropTrailingWsPy_snoc_nonws (by decide)]
  refine ⟨fencedCapturesF jsonFenceM
    (p1 ++ (jsonFenceM ++ ('\n' :: (serV (Json.obj kvs)
      ++ ('\n' :: (fenceM ++ p2)))))).length p2, ?_⟩
  rw [fencedCaptures, fencedCapturesF_succ]
  simp only [hfm, hsw, htu, hdt]

theorem extract_fenced_obj (p1 p2 : List Char) (kvs : List (String × Json))
    (hp1 : btFreeL p1 = true) (hwf : wfV (Json.obj kvs) = true)
    (hload : loadsL (p1 ++ (jsonFenceM ++ ('\n' :: (serV (Json.obj kvs)
      ++ ('\n' :: (fenceM ++ p2)))))) = none) :
    extractJsonL (p1 ++ (jsonFenceM ++ ('\n' :: (serV (Json.obj kvs)
      ++ ('\n' :: (fenceM ++ p2)))))) = Json.obj kvs := by
  have hser : btFreeL (serV (Json.obj kvs)) = true :=
    ((serChars (sizeOf (Json.obj kvs))).1 _ le_rfl hwf).1
  obtain ⟨rest, hcap⟩ := fencedCaptures_first p1 p2 kvs hp1 hser
  apply extract_via_fence _ _ hload
  rw [hcap]
  simp only [firstParse, loadsL_serV _ hwf]

theorem extract_brace_obj (p1 p2 : List Char) (kvs : List (String × Json))
    (hp1b : braceFreeL p1 = true) (hp1t : btFreeL p1 = true) (hp2t : btFreeL p2 = true)
    (hwf : wfV (Json.obj kvs) = true) (hbd : bdV (Json.obj kvs) ≤ 2)
    (hload : loadsL (p1 ++ (serV (Json.obj kvs) ++ p2)) = none) :
    extractJsonL (p1 ++ (serV (Json.obj kvs) ++ p2)) = Json.obj kvs := by
  have hser_bt : btFreeL (serV (Json.obj kvs)) = true :=
    ((serChars (sizeOf (Json.obj kvs))).1 _ le_rfl hwf).1
  have ht_bt : btFreeL (p1 ++ (serV (Json.obj kvs) ++ p2)) = true := by
    simp [btFreeL_append, hp1t, hser_bt, hp2t]
  have h2 : fencedCaptures jsonFenceM (p1 ++ (serV (Json.obj kvs) ++ p2)) = [] :=
    fencedCaptures_none _ _ rfl _ ht_bt
  have h3 : fencedCaptures fenceM (p1 ++ (serV (Json.obj kvs) ++ p2)) = [] :=
    fencedCaptures_none _ _ rfl _ ht_bt
  have hwfM : wfM kvs = true := by
    rw [wfV] at hwf
    exact hwf
  have hbdm : bdM kvs ≤ 1 := by
    rw [bdV] at hbd
    omega
  have hfl : Flat (serMembers kvs) :=
    ((serChars (sizeOf kvs)).2.1 kvs le_rfl hwfM).2.2 hbdm
  have hlen : p1.length < (p1 ++ (serV (Json.obj kvs) ++ p2)).length + 1 := by
    simp [List.length_append]
    omega
  have hfu : (p1 ++ (serV (Json.obj kvs) ++ p2)).length + 1 - p1.length
      = (serV (Json.obj kvs)).length + p2.length + 1 := by
    simp [List.length_append]
    omega
  have h4 : firstParse (braceFindAll (p1 ++ (serV (Json.obj kvs) ++ p2)))
      = some (Json.obj kvs) := by
    rw [braceFindAll, braceFindAllF_skip p1 _ _ hp1b hlen, hfu,
      braceFindAllF_obj kvs hfl p2]
    simp only [firstParse, loadsL_serV _ hwf]
  exact extract_via_brace _ _ hload h2 h3 h4

theorem extract_noise (t : List Char) (hload : loadsL t = none)
    (hbt : btFreeL t = true) (hbr : braceFreeL t = true) :
    extractJsonL t = Json.obj [] := by
  have h2 : fencedCaptures jsonFenceM t = [] := fencedCaptures_none _ _ rfl t hbt
  have h3 : fencedCaptures fenceM t = [] := fencedCaptures_none _ _ rfl t hbt
  have h4 : braceFindAll t = [] := by
    rw [braceFindAll]
    exact braceFindAllF_none _ t hbr
  exact extract_default t hload h2 h3 h4

def jC6kvs : List (String × Json) :=
  [("a", Json.obj [("b", Json.obj [("c", Json.num (mkRat 1 1))])])]

def jC6 : Json := Json.obj jC6kvs

def jW2kvs : List (String × Json) :=
  [("x", Json.obj [("y", Json.num (mkRat 2 1))])]

/-- C6: counterexample to the round-trip claim.  `jC6` is a well-formed
JSON object, but its serialization has brace depth three, which the brace
regex of `extract_json_from_text` cannot capture whole: embedded in bare
prose, extraction returns the inner depth-two subobject, not the original
object. -/
theorem c6_counterexample :
    wfV jC6 = true
    ∧ extractJsonL ("note ".data ++ serV jC6 ++ " end".data)
        = Json.obj [("b", Json.obj [("c", Json.num (mkRat 1 1))])]
    ∧ Json.obj [("b", Json.obj [("c", Json.num (mkRat 1 1))])] ≠ jC6 :=
  ⟨rfl, rfl, by simp [jC6, jC6kvs]⟩

/-- C6: amended round trip for `extract_json_from_text`.  (1) A well-formed
object serialized inside a ```` ```json ```` fenced block surrounded by
backtick-free prose is recovered exactly, at any nesting depth.  (2) A
well-formed object whose serialization has brace depth at most two,
embedded in bare prose (no braces or backticks before it, no backticks
after), is recovered exactly by the brace pattern.  (3) On noise text with
no parsable value, no backticks and no braces, extraction returns the
empty mapping.  Deeper objects in bare prose are NOT recovered (see the
counterexample). -/
theorem c6_amended :
    (∀ p1 p2 kvs, btFreeL p1 = true → wfV (Json.obj kvs) = true →
      loadsL (p1 ++ (jsonFenceM ++ ('\n' :: (serV (Json.obj kvs)
        ++ ('\n' :: (fenceM ++ p2)))))) = none →
      extractJsonL (p1 ++ (jsonFenceM ++ ('\n' :: (serV (Json.obj kvs)
        ++ ('\n' :: (fenceM ++ p2)))))) = Json.obj kvs)
    ∧ (∀ p1 p2 kvs, braceFreeL p1 = true → btFreeL p1 = true → btFreeL p2 = true →
      wfV (Json.obj kvs) = true → bdV (Json.obj kvs) ≤ 2 →
      loadsL (p1 ++ (serV (Json.obj kvs) ++ p2)) = none →
      extractJsonL (p1 ++ (serV (Json.obj kvs) ++ p2)) = Json.obj kvs)
    ∧ (∀ t, loadsL t = none → btFreeL t = true → braceFreeL t = true →
      extractJsonL t = Json.obj []) :=
  ⟨fun p1 p2 kvs h1 h2 h3 => extract_fenced_obj p1 p2 kvs h1 h2 h3,
   fun p1 p2 kvs h1 h2 h3 h4 h5 h6 => extract_brace_obj p1 p2 kvs h1 h2 h3 h4 h5 h6,
   fun t h1 h2 h3 => extract_noise t h1 h2 h3⟩

/-- C6: witness instantiating the amended theorem: the depth-three object
`jC6` is recovered from a fenced block, a depth-two object from bare
prose, and noise maps to the empty object. -/
theorem c6_witness :
    extractJsonL ("see\n".data ++ (jsonFenceM ++ ('\n' :: (serV (Json.obj jC6kvs)
      ++ ('\n' :: (fenceM ++ " ok".data)))))) = Json.obj jC6kvs
    ∧ extractJsonL ("ans: ".data ++ (serV (Json.obj jW2kvs) ++ "!".data))
        = Json.obj jW2kvs
    ∧ extractJsonL "no json here".data = Json.obj [] :=
  ⟨c6_amended.1 "see\n".data " ok".data jC6kvs (by rfl) (by rfl) (by rfl),
   c6_amended.2.1 "ans: ".data "!".data jW2kvs (by rfl) (by rfl) (by rfl) (by rfl)
     (by decide) (by rfl),
   c6_amended.2.2 "no json here".data (by rfl) (by rfl) (by rfl)⟩
